import Mathlib

/-!
Shallow embedding of the 2048 game engine from `src/game.rs` of the
`polzerj/2048` repository, together with theorems settling the spec claims.

Machine integers (`u32`, `usize`) are modelled as `Nat`; the tile values and
scores reachable by the game stay far below `2^32`, and no claim concerns
wrap-around behaviour.  The two RNG draws made by `spawn_tile`
(`empty.choose(&mut rng)` and `rng.random_bool(0.9)`) are modelled as oracle
parameters: `pick : Nat` selects the chosen empty cell (reduced modulo the
number of empty cells, so every possible choice is covered) and
`four : Bool` tells whether the spawned tile is a 4 (else a 2).

The `while` loops of `Game2048::merge` are translated as structural
recursion on an explicit fuel argument; the fuel passed by the wrappers
(`line.length`) is enough for the loop to reach its exit condition, so the
translation computes exactly the loop's result.
-/

namespace TwentyFortyEight

/-- Board dimension: `pub const SIZE: usize = 4`. -/
abbrev SIZE : Nat := 4

/-- Undo history bound: `pub const UNDO_LIMIT: usize = 10`. -/
def UNDO_LIMIT : Nat := 10

/-- `MovementDirection` from `src/game.rs`. -/
inductive MovementDirection : Type
  | up
  | down
  | left
  | right
deriving DecidableEq, Repr

/-- The grid `[[u32; SIZE]; SIZE]`, as a function from (row, column). -/
abbrev Board : Type := Fin SIZE → Fin SIZE → Nat

/-- `Vec::resize(n, 0)`: truncate to `n` elements, or pad with zeros. -/
def resizeTo (n : Nat) (l : List Nat) : List Nat :=
  l.take n ++ List.replicate (n - l.length) 0

/-- The inner `while` loop of `Game2048::merge`
(`while j < line.len() && line[j] == 0 { j += 1 }`): advance `j` past
zero cells.  `fuel` bounds the number of iterations; the caller passes
`line.length`, which always suffices. -/
def skipZeros (line : List Nat) : Nat → Nat → Nat
  | j, 0 => j
  | j, fuel + 1 =>
    if j < line.length && line.getD j 0 == 0 then skipZeros line (j + 1) fuel else j

/-- The outer `while i < line.len()` loop of `Game2048::merge`.  For each
non-zero cell `i` it finds the next non-zero cell `j`, and if the two are
equal it scores `line[i]`, doubles `line[i]`, zeroes `line[j]` and marks
`moved`; the scan then continues from `i + 1`.  `fuel` bounds the number of
iterations; `line.length` suffices. -/
def mergeScanGo : Nat → List Nat → Nat → Nat → Bool → List Nat × Nat × Bool
  | 0, line, _, score, moved => (line, score, moved)
  | fuel + 1, line, i, score, moved =>
    if i < line.length then
      if line.getD i 0 == 0 then mergeScanGo fuel line (i + 1) score moved
      else
        let j := skipZeros line (i + 1) line.length
        if j < line.length && line.getD i 0 == line.getD j 0 then
          mergeScanGo fuel ((line.set i (2 * line.getD i 0)).set j 0) (i + 1)
            (score + line.getD i 0) true
        else mergeScanGo fuel line (i + 1) score moved
    else (line, score, moved)

/-- `Game2048::merge`: scan-and-merge a line, then compact it (drop the
zeros, keep the survivors' order, pad back to `SIZE` with trailing zeros).
Returns the new line, the score gained (`self.score` increments), and the
`moved` flag. -/
def merge (line : List Nat) : List Nat × Nat × Bool :=
  let r := mergeScanGo line.length line 0 0 false
  (resizeTo SIZE (r.1.filter (fun x => x != 0)), r.2.1, r.2.2)

/-- The line of cells read by one iteration of a move loop: `pos k t` is the
board cell holding offset `t` of line `k`. -/
def lineGet (pos : Fin SIZE → Fin SIZE → Fin SIZE × Fin SIZE) (b : Board)
    (k : Fin SIZE) : List Nat :=
  (List.finRange SIZE).map fun t => b (pos k t).1 (pos k t).2

/-- One iteration of a move loop in `src/game.rs`, parameterised by the
line-extraction map `pos` (cell of offset `t` in line `k`) and its inverse
`idx` (cell `(i, j)` lies at `(line, offset) = idx i j`):
extract the line, `merge` it, then write it back comparing each written
value with the old cell (`moved |= self.board[..][..] != val`). -/
def dirStep (pos idx : Fin SIZE → Fin SIZE → Fin SIZE × Fin SIZE)
    (acc : Board × Nat × Bool) (k : Fin SIZE) : Board × Nat × Bool :=
  let r := merge (lineGet pos acc.1 k)
  let moved := acc.2.2 || r.2.2 ||
    (List.finRange SIZE).any fun t => acc.1 (pos k t).1 (pos k t).2 != r.1.getD t 0
  (fun i j => if (idx i j).1 = k then r.1.getD ((idx i j).2 : Nat) 0 else acc.1 i j,
   acc.2.1 + r.2.1, moved)

/-- `Game2048::move_up`: per column `j`, the line is
`(0..SIZE).map(|i| board[i][j])`; offset `t` of line `k` is cell `(t, k)`. -/
def move_up (b : Board) : Board × Nat × Bool :=
  (List.finRange SIZE).foldl (dirStep (fun k t => (t, k)) (fun i j => (j, i))) (b, 0, false)

/-- `Game2048::move_down`: per column `j`, the line is
`(0..SIZE).map(|i| board[SIZE-1-i][j])`; offset `t` of line `k` is cell
`(SIZE-1-t, k)`, and cell `(i, j)` is offset `SIZE-1-i` of line `j`. -/
def move_down (b : Board) : Board × Nat × Bool :=
  (List.finRange SIZE).foldl (dirStep (fun k t => (t.rev, k)) (fun i j => (j, i.rev))) (b, 0, false)

/-- `Game2048::move_left`: per row `i`, the line is `board[i]`. -/
def move_left (b : Board) : Board × Nat × Bool :=
  (List.finRange SIZE).foldl (dirStep (fun k t => (k, t)) (fun i j => (i, j))) (b, 0, false)

/-- `Game2048::move_right`: per row `i`, the line is `board[i]` reversed;
offset `t` of line `k` is cell `(k, SIZE-1-t)`. -/
def move_right (b : Board) : Board × Nat × Bool :=
  (List.finRange SIZE).foldl (dirStep (fun k t => (k, t.rev)) (fun i j => (i, j.rev))) (b, 0, false)

/-- The game state `Game2048 { board, score, previous_states }`. -/
structure Game2048 : Type where
  board : Board
  score : Nat
  previous_states : List (Board × Nat)

/-- `Game2048::save_state`: push the current `(board, score)` snapshot, then
drop the oldest one (`remove(0)`) if the history exceeds `UNDO_LIMIT`. -/
def save_state (g : Game2048) : Game2048 :=
  let ps := g.previous_states ++ [(g.board, g.score)]
  { g with previous_states := if UNDO_LIMIT < ps.length then ps.tail else ps }

/-- The list of empty-cell coordinates collected by `Game2048::spawn_tile`,
in row-major order. -/
def emptyCells (b : Board) : List (Fin SIZE × Fin SIZE) :=
  (List.finRange SIZE).flatMap fun i =>
    ((List.finRange SIZE).filter fun j => b i j == 0).map fun j => (i, j)

/-- `Game2048::spawn_tile` with the two RNG draws provided as oracles:
if any empty cell exists, set the cell chosen by `pick` to 4 (when `four`)
or 2, else do nothing. -/
def spawn_tile (g : Game2048) (pick : Nat) (four : Bool) : Game2048 :=
  let empty := emptyCells g.board
  if empty.isEmpty then g
  else
    let c := empty.getD (pick % empty.length) (0, 0)
    { g with board := fun i j => if i = c.1 ∧ j = c.2 then (if four then 4 else 2) else g.board i j }

/-- The `match direction` dispatch inside `move_in_direction`: the pure
shift-and-merge transform of the board, with the score gained and the
`moved` flag. -/
def applyMove (d : MovementDirection) (b : Board) : Board × Nat × Bool :=
  match d with
  | .up => move_up b
  | .down => move_down b
  | .left => move_left b
  | .right => move_right b

/-- `GameEngine::move_in_direction` for `Game2048`: save the state, apply the
directional move, and either spawn a tile (move changed something) or pop the
snapshot just saved (no-op move). -/
def move_in_direction (g : Game2048) (d : MovementDirection) (pick : Nat) (four : Bool) :
    Game2048 × Bool :=
  let g1 := save_state g
  let r := applyMove d g1.board
  let g2 : Game2048 := { board := r.1, score := g1.score + r.2.1,
                         previous_states := g1.previous_states }
  if r.2.2 then (spawn_tile g2 pick four, true)
  else ({ g2 with previous_states := g2.previous_states.dropLast }, false)

/-- `GameEngine::game_over` for `Game2048`: the scan returns `false` as soon
as it finds an empty cell, an equal horizontal neighbour pair, or an equal
vertical neighbour pair. -/
def game_over (b : Board) : Bool :=
  (List.finRange SIZE).all fun i =>
    (List.finRange SIZE).all fun j =>
      !(b i j == 0)
      && !(decide ((j : Nat) < SIZE - 1) && (b i j == b i (j + 1)))
      && !(decide ((i : Nat) < SIZE - 1) && (b i j == b (i + 1) j))

/-- `GameEngine::undo` for `Game2048`: pop the most recent snapshot, restore
board and score from it; report whether a snapshot existed. -/
def undo (g : Game2048) : Game2048 × Bool :=
  match g.previous_states.getLast? with
  | some p => ({ board := p.1, score := p.2, previous_states := g.previous_states.dropLast }, true)
  | none => (g, false)

/-- `impl Default for Game2048`: empty board, score 0, no history, then two
`spawn_tile` calls (their oracle draws passed explicitly). -/
def defaultGame (p1 : Nat) (f1 : Bool) (p2 : Nat) (f2 : Bool) : Game2048 :=
  spawn_tile (spawn_tile ⟨fun _ _ => 0, 0, []⟩ p1 f1) p2 f2

/-! ### Derived definitions

Auxiliary definitions used by the verification: counting helpers, the
closed forms of the move folds, the spec's reference merge algorithm, the
orientation maps, operation sequences, the undo-capacity machinery, and the
concrete games used as witnesses. -/

/-- Number of non-zero entries of a line. -/
def countNZ (l : List Nat) : Nat := (l.filter (fun x => x != 0)).length

/-- Indicator used to track how `List.set` changes `countNZ`. -/
def nzc (x : Nat) : Nat := if x = 0 then 0 else 1

/-- Tile-value predicate: empty or a power of two that is at least 2. -/
def TileOK (x : Nat) : Prop := x = 0 ∨ ∃ k : Nat, x = 2 ^ (k + 1)

/-- The coordinate maps of each direction: `posOf d k t` is the board cell
holding offset `t` of line `k`. -/
def posOf : MovementDirection → Fin SIZE → Fin SIZE → Fin SIZE × Fin SIZE
  | .up => fun k t => (t, k)
  | .down => fun k t => (t.rev, k)
  | .left => fun k t => (k, t)
  | .right => fun k t => (k, t.rev)

/-- Inverse coordinate maps: cell `(i, j)` is offset `(idxOf d i j).2` of
line `(idxOf d i j).1`. -/
def idxOf : MovementDirection → Fin SIZE → Fin SIZE → Fin SIZE × Fin SIZE
  | .up => fun i j => (j, i)
  | .down => fun i j => (j, i.rev)
  | .left => fun i j => (i, j)
  | .right => fun i j => (i, j.rev)

/-- Closed-form board: each cell takes its value from the merged version of
its own line. -/
def movedBoard (pos idx : Fin SIZE → Fin SIZE → Fin SIZE × Fin SIZE) (b : Board) : Board :=
  fun i j => (merge (lineGet pos b (idx i j).1)).1.getD ((idx i j).2 : Nat) 0

/-- Closed-form score: the sum of the per-line merge scores. -/
def movedScore (pos : Fin SIZE → Fin SIZE → Fin SIZE × Fin SIZE) (b : Board) : Nat :=
  ((List.finRange SIZE).map fun k => (merge (lineGet pos b k)).2.1).sum

/-- Closed-form `moved` flag: some line merged or wrote back a different
value. -/
def movedFlag (pos : Fin SIZE → Fin SIZE → Fin SIZE × Fin SIZE) (b : Board) : Bool :=
  (List.finRange SIZE).any fun k =>
    (merge (lineGet pos b k)).2.2 ||
    (List.finRange SIZE).any fun t =>
      b (pos k t).1 (pos k t).2 != (merge (lineGet pos b k)).1.getD (t : Nat) 0

/-- Reference pairing pass from the spec's words: on a zero-free line, merge
equal adjacent values left-to-right; a merged pair is consumed whole, so the
result of a merge is never re-merged in the same pass.  Returns the merged
values and the score gained (the pre-merge value of each merged pair). -/
def specMergePairs : List Nat → List Nat × Nat
  | x :: y :: rest =>
    if x = y then
      ((2 * x) :: (specMergePairs rest).1, (specMergePairs rest).2 + x)
    else
      (x :: (specMergePairs (y :: rest)).1, (specMergePairs (y :: rest)).2)
  | l => (l, 0)

/-- Reference merge from the spec's words: remove the zeros (preserving the
survivors' order), run the pairing pass, and pad with trailing zeros to
length `N = SIZE`. -/
def specMerge (line : List Nat) : List Nat × Nat :=
  let r := specMergePairs (line.filter (fun x => x != 0))
  (r.1 ++ List.replicate (SIZE - r.1.length) 0, r.2)

/-- Reverse every row of the board (the orientation map of the Right move). -/
def revRows (b : Board) : Board := fun i j => b i j.rev

/-- Reverse every column of the board (the orientation map of the Down move). -/
def revCols (b : Board) : Board := fun i j => b i.rev j

/-- The total of all board cells. -/
def boardSum (b : Board) : Nat := ∑ i : Fin SIZE, ∑ j : Fin SIZE, b i j

/-- One engine command, with the move's RNG oracles attached. -/
inductive Op : Type
  | move (d : MovementDirection) (pick : Nat) (four : Bool)
  | undoOp

/-- Execute one command against the game state. -/
def execOp (g : Game2048) : Op → Game2048
  | .move d p f => (move_in_direction g d p f).1
  | .undoOp => (undo g).1

/-- Execute a sequence of commands. -/
def execOps (g : Game2048) (ops : List Op) : Game2048 := ops.foldl execOp g

/-- Invariant: all cells of the board and of every snapshot are 0 or a power
of two at least 2. -/
def GoodGame (g : Game2048) : Prop :=
  (∀ i j, TileOK (g.board i j)) ∧ ∀ s ∈ g.previous_states, ∀ i j, TileOK (s.1 i j)

/-- The pure content of `save_state` on the history list: push the snapshot
at the back and drop the front element when the capacity `UNDO_LIMIT` is
exceeded (`Vec::push` followed by `Vec::remove(0)`). -/
def capPush (l : List (Board × Nat)) (x : Board × Nat) : List (Board × Nat) :=
  if UNDO_LIMIT < (l ++ [x]).length then (l ++ [x]).tail else l ++ [x]

/-- The last `n` elements of a list of snapshots. -/
def lastN (n : Nat) (l : List (Board × Nat)) : List (Board × Nat) :=
  l.drop (l.length - n)

/-- Run a sequence of moves, requiring each one to change the board
(`move_in_direction` returns `true`); record the game state reached after
each move. -/
def trajAux : Game2048 → List (MovementDirection × Nat × Bool) → Option (List Game2048)
  | _, [] => some []
  | g, a :: rest =>
    if (move_in_direction g a.1 a.2.1 a.2.2).2 then
      (trajAux (move_in_direction g a.1 a.2.1 a.2.2).1 rest).map
        fun gs => (move_in_direction g a.1 a.2.1 a.2.2).1 :: gs
    else none

/-- Iterate `undo`, keeping only the game state. -/
def undoN : Game2048 → Nat → Game2048
  | g, 0 => g
  | g, n + 1 => undoN (undo g).1 n

/-- Concrete game used as the C3 witness: one mergeable pair in the top row,
empty undo history. -/
def gC3 : Game2048 :=
  ⟨fun i j => if (i : Nat) = 0 ∧ (j : Nat) < 2 then 2 else 0, 5, []⟩

/-- Concrete game used for C2: a single tile already flush against the left
wall (so moving Left is a no-op) and a full undo history of 10 snapshots. -/
def gC2 : Game2048 :=
  ⟨fun i j => if (i : Nat) = 0 ∧ (j : Nat) = 0 then 2 else 0, 0,
   List.replicate 10 (fun _ _ => 0, 0)⟩

/-- Initial game for the C5 witness: a single 2 at the origin, empty
history. -/
def g0W : Game2048 :=
  ⟨fun i j => if (i : Nat) = 0 ∧ (j : Nat) = 0 then 2 else 0, 0, []⟩

/-- Eleven moves, each of which changes the board of the witness run (the
spawned tile is always placed at the first empty cell, value 2). -/
def argsW : List (MovementDirection × Nat × Bool) :=
  [(.right, 0, false), (.left, 0, false), (.right, 0, false), (.left, 0, false),
   (.left, 0, false), (.left, 0, false), (.left, 0, false), (.down, 0, false),
   (.right, 0, false), (.left, 0, false), (.right, 0, false)]

/-- The intermediate states of the witness run. -/
def gsW : List Game2048 := (trajAux g0W argsW).getD []

/-! ### List helper lemmas -/

theorem countNZ_nil : countNZ [] = 0 := rfl

theorem countNZ_cons (x : Nat) (l : List Nat) : countNZ (x :: l) = nzc x + countNZ l := by
  by_cases h : x = 0 <;> simp [countNZ, nzc, h, List.filter_cons] <;> omega

theorem countNZ_le_length (l : List Nat) : countNZ l ≤ l.length := by
  induction l with
  | nil => simp [countNZ_nil]
  | cons x l ih =>
    rw [countNZ_cons]
    by_cases h : x = 0 <;> simp [nzc, h] <;> omega

theorem zero_mem_of_countNZ_lt (l : List Nat) (h : countNZ l < l.length) : 0 ∈ l := by
  induction l with
  | nil => simp at h
  | cons x l ih =>
    rw [countNZ_cons] at h
    by_cases hx : x = 0
    · simp [hx]
    · simp only [nzc, if_neg hx, List.length_cons] at h
      exact List.mem_cons_of_mem _ (ih (by omega))

theorem filter_nz_eq_of_countNZ_eq (l : List Nat) (h : countNZ l = l.length) :
    l.filter (fun x => x != 0) = l := by
  induction l with
  | nil => rfl
  | cons x l ih =>
    rw [countNZ_cons] at h
    by_cases hx : x = 0
    · simp only [nzc, if_pos hx, List.length_cons, Nat.zero_add] at h
      have := countNZ_le_length l
      omega
    · simp only [nzc, if_neg hx, List.length_cons] at h
      simp [List.filter_cons, hx, ih (by omega)]

theorem sum_filter_nz (l : List Nat) : (l.filter (fun x => x != 0)).sum = l.sum := by
  induction l with
  | nil => rfl
  | cons x l ih =>
    by_cases hx : x = 0 <;> simp [List.filter_cons, hx, ih]

theorem countNZ_filter_nz (l : List Nat) :
    countNZ (l.filter (fun x => x != 0)) = countNZ l := by
  induction l with
  | nil => rfl
  | cons x l ih =>
    by_cases hx : x = 0 <;>
      simp [List.filter_cons, hx, countNZ_cons, nzc, ih]

theorem sum_set (l : List Nat) (n a : Nat) (h : n < l.length) :
    (l.set n a).sum + l.getD n 0 = l.sum + a := by
  induction l generalizing n with
  | nil => simp at h
  | cons x l ih =>
    cases n with
    | zero => simp [List.getD_cons_zero]; omega
    | succ n =>
      simp only [List.set_cons_succ, List.sum_cons, List.getD_cons_succ]
      have := ih n (by simpa using h)
      omega

theorem countNZ_set (l : List Nat) (n a : Nat) (h : n < l.length) :
    countNZ (l.set n a) + nzc (l.getD n 0) = countNZ l + nzc a := by
  induction l generalizing n with
  | nil => simp at h
  | cons x l ih =>
    cases n with
    | zero => simp [List.getD_cons_zero, countNZ_cons]; omega
    | succ n =>
      simp only [List.set_cons_succ, countNZ_cons, List.getD_cons_succ]
      have := ih n (by simpa using h)
      omega

theorem getD_set_ne (l : List Nat) (n m a d : Nat) (h : n ≠ m) :
    (l.set n a).getD m d = l.getD m d := by
  induction l generalizing n m with
  | nil => simp
  | cons x l ih =>
    cases n with
    | zero =>
      cases m with
      | zero => omega
      | succ m => simp
    | succ n =>
      cases m with
      | zero => simp
      | succ m => simpa using ih n m (by omega)

theorem getD_set_self (l : List Nat) (n a d : Nat) (h : n < l.length) :
    (l.set n a).getD n d = a := by
  induction l generalizing n with
  | nil => simp at h
  | cons x l ih =>
    cases n with
    | zero => simp
    | succ n => simpa using ih n (by simpa using h)

theorem countNZ_set_nz (l : List Nat) (n a : Nat) (h : n < l.length)
    (h0 : l.getD n 0 ≠ 0) (ha : a ≠ 0) : countNZ (l.set n a) = countNZ l := by
  have := countNZ_set l n a h
  simp only [nzc, if_neg h0, if_neg ha] at this
  omega

theorem countNZ_set_zero (l : List Nat) (n : Nat) (h : n < l.length)
    (h0 : l.getD n 0 ≠ 0) : countNZ (l.set n 0) + 1 = countNZ l := by
  have := countNZ_set l n 0 h
  simp only [nzc, if_neg h0] at this
  simp at this
  omega

theorem getD_mem_or_default (l : List Nat) (n d : Nat) : l.getD n d ∈ l ∨ l.getD n d = d := by
  induction l generalizing n with
  | nil => simp
  | cons x l ih =>
    cases n with
    | zero => simp
    | succ n =>
      rw [List.getD_cons_succ]
      rcases ih n with h | h
      · exact Or.inl (List.mem_cons_of_mem _ h)
      · exact Or.inr h

theorem getD_mem_of_lt {α : Type} (l : List α) (n : Nat) (d : α) (h : n < l.length) :
    l.getD n d ∈ l := by
  induction l generalizing n with
  | nil => simp at h
  | cons x l ih =>
    cases n with
    | zero => simp
    | succ n => exact List.mem_cons_of_mem _ (ih n (by simpa using h))

/-- Every length-4 list is a literal 4-element list. -/
theorem length_four_cases (l : List Nat) (h : l.length = 4) :
    ∃ a b c d : Nat, l = [a, b, c, d] := by
  match l, h with
  | [a, b, c, d], _ => exact ⟨a, b, c, d, rfl⟩

theorem list_ext_four (l₁ l₂ : List Nat) (h₁ : l₁.length = 4) (h₂ : l₂.length = 4)
    (h : ∀ t : Fin SIZE, l₁.getD (t : Nat) 0 = l₂.getD (t : Nat) 0) : l₁ = l₂ := by
  obtain ⟨a, b, c, d, rfl⟩ := length_four_cases l₁ h₁
  obtain ⟨a', b', c', d', rfl⟩ := length_four_cases l₂ h₂
  have h0 := h ⟨0, by decide⟩
  have h1 := h ⟨1, by decide⟩
  have h2 := h ⟨2, by decide⟩
  have h3 := h ⟨3, by decide⟩
  simp at h0 h1 h2 h3
  simp [h0, h1, h2, h3]

theorem sum_eq_sum_getD (l : List Nat) (h : l.length = 4) :
    l.sum = ∑ t : Fin SIZE, l.getD (t : Nat) 0 := by
  obtain ⟨a, b, c, d, rfl⟩ := length_four_cases l h
  simp [Fin.sum_univ_succ]

/-! ### `resizeTo` lemmas -/

theorem length_resizeTo (n : Nat) (l : List Nat) : (resizeTo n l).length = n := by
  simp [resizeTo]
  omega

theorem sum_resizeTo (n : Nat) (l : List Nat) (h : l.length ≤ n) :
    (resizeTo n l).sum = l.sum := by
  simp [resizeTo, List.take_of_length_le h, List.sum_replicate]

theorem mem_resizeTo (n : Nat) (l : List Nat) (x : Nat) (hx : x ∈ resizeTo n l) :
    x ∈ l ∨ x = 0 := by
  rcases List.mem_append.1 hx with h | h
  · exact Or.inl (List.mem_of_mem_take h)
  · exact Or.inr (List.eq_of_mem_replicate h)

theorem countNZ_resizeTo (n : Nat) (l : List Nat) (h : l.length ≤ n) :
    countNZ (resizeTo n l) = countNZ l := by
  simp only [resizeTo, List.take_of_length_le h, countNZ, List.filter_append]
  have : (List.replicate (n - l.length) 0).filter (fun x => x != 0) = [] := by
    apply List.filter_eq_nil_iff.2
    intro a ha
    simp [List.eq_of_mem_replicate ha]
  simp [this]

/-! ### Properties of the merge scan -/

theorem skipZeros_ge (line : List Nat) : ∀ (fuel j : Nat), j ≤ skipZeros line j fuel := by
  intro fuel
  induction fuel with
  | zero => intro j; simp [skipZeros]
  | succ fuel ih =>
    intro j
    rw [skipZeros]
    split
    · exact Nat.le_trans (Nat.le_succ j) (ih (j + 1))
    · exact Nat.le_refl j

theorem mergeScanGo_length (fuel : Nat) : ∀ (line : List Nat) (i s : Nat) (m : Bool),
    (mergeScanGo fuel line i s m).1.length = line.length := by
  induction fuel with
  | zero => intro line i s m; rfl
  | succ fuel ih =>
    intro line i s m
    rw [mergeScanGo]
    dsimp only
    split
    · split
      · exact ih line (i + 1) s m
      · split
        · rw [ih]
          simp
        · exact ih line (i + 1) s m
    · rfl

theorem mergeScanGo_moved_mono (fuel : Nat) : ∀ (line : List Nat) (i s : Nat),
    (mergeScanGo fuel line i s true).2.2 = true := by
  induction fuel with
  | zero => intro line i s; rfl
  | succ fuel ih =>
    intro line i s
    rw [mergeScanGo]
    dsimp only
    split
    · split
      · exact ih line (i + 1) s
      · split
        · exact ih _ (i + 1) _
        · exact ih line (i + 1) s
    · rfl

theorem mergeScanGo_not_moved (fuel : Nat) : ∀ (line : List Nat) (i s : Nat) (m : Bool),
    (mergeScanGo fuel line i s m).2.2 = false →
    (mergeScanGo fuel line i s m).1 = line ∧ (mergeScanGo fuel line i s m).2.1 = s := by
  induction fuel with
  | zero => intro line i s m _; exact ⟨rfl, rfl⟩
  | succ fuel ih =>
    intro line i s m h
    rw [mergeScanGo] at h ⊢
    dsimp only at h ⊢
    split at h <;> rename_i h1
    · split at h <;> rename_i h2
      · simp only [h1, h2, if_pos]
        exact ih line (i + 1) s m h
      · split at h <;> rename_i h3
        · rw [mergeScanGo_moved_mono] at h
          exact absurd h (by simp)
        · simp only [h1, h2, h3, if_pos, if_neg, ite_false]
          exact ih line (i + 1) s m h
    · rw [if_neg h1]
      exact ⟨rfl, rfl⟩

theorem mergeScanGo_sum (fuel : Nat) : ∀ (line : List Nat) (i s : Nat) (m : Bool),
    (mergeScanGo fuel line i s m).1.sum = line.sum := by
  induction fuel with
  | zero => intro line i s m; rfl
  | succ fuel ih =>
    intro line i s m
    rw [mergeScanGo]
    dsimp only
    split <;> rename_i h1
    · split <;> rename_i h2
      · exact ih line (i + 1) s m
      · split <;> rename_i h3
        · rw [ih]
          -- the merge step preserves the line sum
          have hij : i + 1 ≤ skipZeros line (i + 1) line.length := skipZeros_ge line _ _
          set j := skipZeros line (i + 1) line.length with hj
          simp only [Bool.and_eq_true, decide_eq_true_eq, beq_iff_eq] at h3
          obtain ⟨hjlt, heq⟩ := h3
          have hne : i ≠ j := by omega
          have h₁ := sum_set line i (2 * line.getD i 0) h1
          have h₂ := sum_set (line.set i (2 * line.getD i 0)) j 0
            (by simpa using hjlt)
          rw [getD_set_ne _ _ _ _ _ hne] at h₂
          omega
        · exact ih line (i + 1) s m
    · rfl

theorem mergeScanGo_countNZ_le (fuel : Nat) : ∀ (line : List Nat) (i s : Nat) (m : Bool),
    countNZ (mergeScanGo fuel line i s m).1 ≤ countNZ line := by
  induction fuel with
  | zero => intro line i s m; exact Nat.le_refl _
  | succ fuel ih =>
    intro line i s m
    rw [mergeScanGo]
    dsimp only
    split <;> rename_i h1
    · split <;> rename_i h2
      · exact ih line (i + 1) s m
      · split <;> rename_i h3
        · refine Nat.le_trans (ih _ (i + 1) _ _) ?_
          have hij : i + 1 ≤ skipZeros line (i + 1) line.length := skipZeros_ge line _ _
          set j := skipZeros line (i + 1) line.length with hj
          simp only [Bool.and_eq_true, decide_eq_true_eq, beq_iff_eq] at h3
          obtain ⟨hjlt, heq⟩ := h3
          have hvnz : line.getD i 0 ≠ 0 := by simpa using h2
          have hne : i ≠ j := by omega
          have h₁ : countNZ (line.set i (2 * line.getD i 0)) = countNZ line :=
            countNZ_set_nz line i (2 * line.getD i 0) h1 hvnz (by omega)
          have hgj : (line.set i (2 * line.getD i 0)).getD j 0 ≠ 0 := by
            rw [getD_set_ne _ _ _ _ _ hne, ← heq]
            exact hvnz
          have h₂ : countNZ ((line.set i (2 * line.getD i 0)).set j 0) + 1 =
              countNZ (line.set i (2 * line.getD i 0)) :=
            countNZ_set_zero _ j (by simpa using hjlt) hgj
          omega
        · exact ih line (i + 1) s m
    · exact Nat.le_refl _

theorem mergeScanGo_countNZ_lt (fuel : Nat) : ∀ (line : List Nat) (i s : Nat),
    (mergeScanGo fuel line i s false).2.2 = true →
    countNZ (mergeScanGo fuel line i s false).1 < countNZ line := by
  induction fuel with
  | zero => intro line i s h; exact absurd h (by simp [mergeScanGo])
  | succ fuel ih =>
    intro line i s h
    rw [mergeScanGo] at h ⊢
    dsimp only at h ⊢
    split at h <;> rename_i h1
    · split at h <;> rename_i h2
      · simp only [h1, h2, if_pos]
        exact ih line (i + 1) s h
      · split at h <;> rename_i h3
        · simp only [h1, h2, h3, if_pos, if_neg, ite_true]
          refine Nat.lt_of_le_of_lt (mergeScanGo_countNZ_le fuel _ (i + 1) _ true) ?_
          have hij : i + 1 ≤ skipZeros line (i + 1) line.length := skipZeros_ge line _ _
          set j := skipZeros line (i + 1) line.length with hj
          simp only [Bool.and_eq_true, decide_eq_true_eq, beq_iff_eq] at h3
          obtain ⟨hjlt, heq⟩ := h3
          have hvnz : line.getD i 0 ≠ 0 := by simpa using h2
          have hne : i ≠ j := by omega
          have h₁ : countNZ (line.set i (2 * line.getD i 0)) = countNZ line :=
            countNZ_set_nz line i (2 * line.getD i 0) h1 hvnz (by omega)
          have hgj : (line.set i (2 * line.getD i 0)).getD j 0 ≠ 0 := by
            rw [getD_set_ne _ _ _ _ _ hne, ← heq]
            exact hvnz
          have h₂ : countNZ ((line.set i (2 * line.getD i 0)).set j 0) + 1 =
              countNZ (line.set i (2 * line.getD i 0)) :=
            countNZ_set_zero _ j (by simpa using hjlt) hgj
          omega
        · simp only [h1, h2, h3, if_pos, if_neg, ite_false]
          exact ih line (i + 1) s h
    · exact absurd h (by simp)

theorem tileOK_zero : TileOK 0 := Or.inl rfl

theorem tileOK_two : TileOK 2 := Or.inr ⟨0, rfl⟩

theorem tileOK_four : TileOK 4 := Or.inr ⟨1, rfl⟩

theorem tileOK_double (x : Nat) (h : TileOK x) : TileOK (2 * x) := by
  rcases h with h | ⟨k, rfl⟩
  · simp [h, tileOK_zero]
  · exact Or.inr ⟨k + 1, by ring⟩

theorem mergeScanGo_tileOK (fuel : Nat) : ∀ (line : List Nat) (i s : Nat) (m : Bool),
    (∀ x ∈ line, TileOK x) → ∀ x ∈ (mergeScanGo fuel line i s m).1, TileOK x := by
  induction fuel with
  | zero => intro line i s m hl; exact hl
  | succ fuel ih =>
    intro line i s m hl
    rw [mergeScanGo]
    dsimp only
    split <;> rename_i h1
    · split
      · exact ih line (i + 1) s m hl
      · split
        · refine ih _ (i + 1) _ true ?_
          intro x hx
          rcases List.mem_or_eq_of_mem_set hx with hx' | rfl
          · rcases List.mem_or_eq_of_mem_set hx' with hx'' | rfl
            · exact hl x hx''
            · exact tileOK_double _ (hl _ (getD_mem_of_lt line i 0 h1))
          · exact tileOK_zero
        · exact ih line (i + 1) s m hl
    · exact hl

/-! ### Properties of `merge` -/

theorem resizeTo_self (n : Nat) (l : List Nat) (h : l.length = n) : resizeTo n l = l := by
  simp [resizeTo, List.take_of_length_le (Nat.le_of_eq h), h]

theorem merge_length (l : List Nat) : (merge l).1.length = SIZE :=
  length_resizeTo _ _

theorem merge_sum (l : List Nat) (h : l.length ≤ SIZE) : (merge l).1.sum = l.sum := by
  unfold merge
  dsimp only
  rw [sum_resizeTo, sum_filter_nz, mergeScanGo_sum]
  calc ((mergeScanGo l.length l 0 0 false).1.filter (fun x => x != 0)).length
      = countNZ (mergeScanGo l.length l 0 0 false).1 := rfl
    _ ≤ countNZ l := mergeScanGo_countNZ_le _ _ _ _ _
    _ ≤ l.length := countNZ_le_length l
    _ ≤ SIZE := h

theorem merge_score_of_not_moved (l : List Nat) (h : (merge l).2.2 = false) :
    (merge l).2.1 = 0 := by
  unfold merge at h ⊢
  dsimp only at h ⊢
  exact (mergeScanGo_not_moved _ _ _ _ _ h).2

theorem merge_line_of_not_moved (l : List Nat) (h : (merge l).2.2 = false) :
    (merge l).1 = resizeTo SIZE (l.filter (fun x => x != 0)) := by
  unfold merge at h ⊢
  dsimp only at h ⊢
  rw [(mergeScanGo_not_moved _ _ _ _ _ h).1]

theorem merge_countNZ (l : List Nat) (h : l.length = SIZE) :
    countNZ (merge l).1 = countNZ (mergeScanGo l.length l 0 0 false).1 := by
  unfold merge
  dsimp only
  rw [countNZ_resizeTo, countNZ_filter_nz]
  calc ((mergeScanGo l.length l 0 0 false).1.filter (fun x => x != 0)).length
      = countNZ (mergeScanGo l.length l 0 0 false).1 := rfl
    _ ≤ countNZ l := mergeScanGo_countNZ_le _ _ _ _ _
    _ ≤ l.length := countNZ_le_length l
    _ ≤ SIZE := Nat.le_of_eq h

theorem merge_moved_countNZ_lt (l : List Nat) (h : l.length = SIZE)
    (hm : (merge l).2.2 = true) : countNZ (merge l).1 < countNZ l := by
  rw [merge_countNZ l h]
  exact mergeScanGo_countNZ_lt _ _ _ _ hm

theorem merge_moved_ne (l : List Nat) (h : l.length = SIZE)
    (hm : (merge l).2.2 = true) : (merge l).1 ≠ l := by
  intro he
  have := merge_moved_countNZ_lt l h hm
  rw [he] at this
  omega

theorem merge_changed_zero_mem (l : List Nat) (h : l.length = SIZE)
    (hc : (merge l).2.2 = true ∨ (merge l).1 ≠ l) : 0 ∈ (merge l).1 := by
  apply zero_mem_of_countNZ_lt
  rw [merge_length]
  by_cases hm : (merge l).2.2 = true
  · have := merge_moved_countNZ_lt l h hm
    have := countNZ_le_length l
    omega
  · have hm' : (merge l).2.2 = false := by
      cases hmm : (merge l).2.2
      · rfl
      · exact absurd hmm hm
    have hne : (merge l).1 ≠ l := by
      rcases hc with hc | hc
      · exact absurd hc hm
      · exact hc
    -- without a merge, the line was only compacted; a full line would be unchanged
    have hline := merge_line_of_not_moved l hm'
    by_cases hfull : countNZ l = l.length
    · rw [filter_nz_eq_of_countNZ_eq l hfull, resizeTo_self SIZE l h] at hline
      exact absurd hline hne
    · have h1 : countNZ l < l.length := Nat.lt_of_le_of_ne (countNZ_le_length l) hfull
      have h2 : countNZ (merge l).1 = countNZ (mergeScanGo l.length l 0 0 false).1 :=
        merge_countNZ l h
      rw [(mergeScanGo_not_moved _ _ _ _ _ (by unfold merge at hm'; exact hm')).1] at h2
      omega

theorem merge_tileOK (l : List Nat) (hl : ∀ x ∈ l, TileOK x) :
    ∀ x ∈ (merge l).1, TileOK x := by
  intro x hx
  rcases mem_resizeTo _ _ _ hx with hx' | rfl
  · exact mergeScanGo_tileOK _ _ _ _ _ hl x (List.mem_of_mem_filter hx')
  · exact tileOK_zero

/-! ### Closed form of the four move folds

Each direction's loop is a fold of `dirStep pos idx` over the line indices.
Because distinct iterations read and write disjoint lines, the fold equals a
closed form in which every line is merged independently. -/

theorem idxOf_posOf (d : MovementDirection) (k t : Fin SIZE) :
    idxOf d (posOf d k t).1 (posOf d k t).2 = (k, t) := by
  cases d <;> simp [posOf, idxOf, Fin.rev_rev]

theorem posOf_idxOf (d : MovementDirection) (i j : Fin SIZE) :
    posOf d (idxOf d i j).1 (idxOf d i j).2 = (i, j) := by
  cases d <;> simp [posOf, idxOf, Fin.rev_rev]

theorem dirFold_go (pos idx : Fin SIZE → Fin SIZE → Fin SIZE × Fin SIZE) (b : Board)
    (hpi : ∀ k t, idx (pos k t).1 (pos k t).2 = (k, t)) :
    ∀ (ks : List (Fin SIZE)) (acc : Board × Nat × Bool), ks.Nodup →
    (∀ k ∈ ks, ∀ t, acc.1 (pos k t).1 (pos k t).2 = b (pos k t).1 (pos k t).2) →
    ks.foldl (dirStep pos idx) acc =
      ((fun i j => if (idx i j).1 ∈ ks
          then (merge (lineGet pos b (idx i j).1)).1.getD ((idx i j).2 : Nat) 0
          else acc.1 i j),
       acc.2.1 + (ks.map fun k => (merge (lineGet pos b k)).2.1).sum,
       acc.2.2 || ks.any fun k =>
         (merge (lineGet pos b k)).2.2 ||
         (List.finRange SIZE).any fun t =>
           b (pos k t).1 (pos k t).2 != (merge (lineGet pos b k)).1.getD (t : Nat) 0) := by
  intro ks
  induction ks with
  | nil =>
    intro acc _ _
    simp only [List.foldl_nil, List.not_mem_nil, if_false, List.map_nil, List.sum_nil,
      Nat.add_zero, List.any_nil, Bool.or_false]
  | cons k ks ih =>
    intro acc hnd hacc
    rw [List.foldl_cons]
    have hlk : lineGet pos acc.1 k = lineGet pos b k := by
      unfold lineGet
      apply List.map_congr_left
      intro t _
      exact hacc k (List.mem_cons_self k ks) t
    have hstep1 : ∀ i j, (dirStep pos idx acc k).1 i j =
        (if (idx i j).1 = k
          then (merge (lineGet pos b (idx i j).1)).1.getD ((idx i j).2 : Nat) 0
          else acc.1 i j) := by
      intro i j
      show (if (idx i j).1 = k
          then (merge (lineGet pos acc.1 k)).1.getD ((idx i j).2 : Nat) 0
          else acc.1 i j) = _
      rw [hlk]
      by_cases hk : (idx i j).1 = k
      · rw [if_pos hk, if_pos hk, hk]
      · rw [if_neg hk, if_neg hk]
    have hstep2 : (dirStep pos idx acc k).2.1 = acc.2.1 + (merge (lineGet pos b k)).2.1 := by
      show acc.2.1 + (merge (lineGet pos acc.1 k)).2.1 = _
      rw [hlk]
    have hstep3 : (dirStep pos idx acc k).2.2 =
        (acc.2.2 || ((merge (lineGet pos b k)).2.2 ||
          (List.finRange SIZE).any fun t =>
            b (pos k t).1 (pos k t).2 != (merge (lineGet pos b k)).1.getD (t : Nat) 0)) := by
      show (acc.2.2 || (merge (lineGet pos acc.1 k)).2.2 ||
          (List.finRange SIZE).any fun t =>
            acc.1 (pos k t).1 (pos k t).2 != (merge (lineGet pos acc.1 k)).1.getD (t : Nat) 0) = _
      rw [hlk]
      have harg : (fun t => acc.1 (pos k t).1 (pos k t).2 !=
            (merge (lineGet pos b k)).1.getD (t : Nat) 0) =
          (fun t => b (pos k t).1 (pos k t).2 !=
            (merge (lineGet pos b k)).1.getD (t : Nat) 0) := by
        funext t
        rw [hacc k (List.mem_cons_self k ks) t]
      rw [harg, Bool.or_assoc]
    have hacc' : ∀ k' ∈ ks, ∀ t,
        (dirStep pos idx acc k).1 (pos k' t).1 (pos k' t).2 =
        b (pos k' t).1 (pos k' t).2 := by
      intro k' hk' t
      rw [hstep1]
      have hne : (idx (pos k' t).1 (pos k' t).2).1 ≠ k := by
        rw [hpi k' t]
        show k' ≠ k
        intro hc
        rw [hc] at hk'
        exact (List.nodup_cons.1 hnd).1 hk'
      rw [if_neg hne]
      exact hacc k' (List.mem_cons_of_mem _ hk') t
    rw [ih (dirStep pos idx acc k) (List.nodup_cons.1 hnd).2 hacc']
    simp only [Prod.mk.injEq]
    refine ⟨?_, ?_, ?_⟩
    · funext i j
      show (if (idx i j).1 ∈ ks
          then (merge (lineGet pos b (idx i j).1)).1.getD ((idx i j).2 : Nat) 0
          else (dirStep pos idx acc k).1 i j) =
        (if (idx i j).1 ∈ k :: ks
          then (merge (lineGet pos b (idx i j).1)).1.getD ((idx i j).2 : Nat) 0
          else acc.1 i j)
      rw [hstep1]
      by_cases h1 : (idx i j).1 ∈ ks
      · rw [if_pos h1, if_pos (List.mem_cons_of_mem _ h1)]
      · rw [if_neg h1]
        by_cases h2 : (idx i j).1 = k
        · rw [if_pos h2, if_pos (by rw [h2]; exact List.mem_cons_self k ks)]
        · rw [if_neg h2, if_neg (by simp [List.mem_cons, h1, h2])]
    · rw [hstep2]
      simp [Nat.add_assoc]
    · rw [hstep3]
      simp [Bool.or_assoc]

theorem dirFold_closed (pos idx : Fin SIZE → Fin SIZE → Fin SIZE × Fin SIZE) (b : Board)
    (hpi : ∀ k t, idx (pos k t).1 (pos k t).2 = (k, t)) :
    (List.finRange SIZE).foldl (dirStep pos idx) (b, 0, false) =
      (movedBoard pos idx b, movedScore pos b, movedFlag pos b) := by
  rw [dirFold_go pos idx b hpi (List.finRange SIZE) (b, 0, false)
    (List.nodup_finRange SIZE) (fun _ _ _ => rfl)]
  simp only [Prod.mk.injEq]
  refine ⟨?_, by simp [movedScore], by simp [movedFlag]⟩
  funext i j
  rw [if_pos (List.mem_finRange _)]
  rfl

theorem applyMove_eq (d : MovementDirection) (b : Board) :
    applyMove d b = (movedBoard (posOf d) (idxOf d) b, movedScore (posOf d) b,
      movedFlag (posOf d) b) := by
  cases d
  · exact dirFold_closed (posOf .up) (idxOf .up) b (idxOf_posOf .up)
  · exact dirFold_closed (posOf .down) (idxOf .down) b (idxOf_posOf .down)
  · exact dirFold_closed (posOf .left) (idxOf .left) b (idxOf_posOf .left)
  · exact dirFold_closed (posOf .right) (idxOf .right) b (idxOf_posOf .right)

/-! ### The spec's reference merge algorithm (for claim C1)

The spec describes the merge primitive as: skipping zeros, each non-zero cell
merges with the next non-zero cell when equal, the merged pair is consumed
(no re-merge within the pass), the pre-merge value is scored, and the line is
then compacted and padded with trailing zeros to length `N`.  Skipping zeros
means the scan acts on the sequence of non-zero values, so the reference
algorithm is: compact, then greedily pair equal adjacent survivors
left-to-right, consuming both elements of each merged pair. -/

set_option maxHeartbeats 1600000 in
/-- `Game2048::merge` agrees with the spec's reference algorithm on
4-element lines (exhaustive case analysis over the zero pattern and the
equality tests the scan performs). -/
theorem merge_eq_specMerge (a b c d : Nat) :
    (merge [a, b, c, d]).1 = (specMerge [a, b, c, d]).1 ∧
    (merge [a, b, c, d]).2.1 = (specMerge [a, b, c, d]).2 := by
  by_cases ha : a = 0 <;> by_cases hb : b = 0 <;> by_cases hc : c = 0 <;> by_cases hd : d = 0 <;>
    simp [merge, mergeScanGo, skipZeros, specMerge, specMergePairs, resizeTo,
      ha, hb, hc, hd, List.filter_cons] <;>
    split_ifs <;> simp_all [specMergePairs, List.filter_cons] <;> omega

/-! ### Game-level helper lemmas -/

theorem save_state_board (g : Game2048) : (save_state g).board = g.board := rfl

theorem save_state_score (g : Game2048) : (save_state g).score = g.score := rfl

theorem spawn_tile_previous_states (g : Game2048) (p : Nat) (f : Bool) :
    (spawn_tile g p f).previous_states = g.previous_states := by
  unfold spawn_tile
  dsimp only
  by_cases h : (emptyCells g.board).isEmpty
  · rw [if_pos h]
  · rw [if_neg h]

theorem spawn_tile_score (g : Game2048) (p : Nat) (f : Bool) :
    (spawn_tile g p f).score = g.score := by
  unfold spawn_tile
  dsimp only
  by_cases h : (emptyCells g.board).isEmpty
  · rw [if_pos h]
  · rw [if_neg h]

/-- The boolean returned by `move_in_direction` is the `moved` flag of the
pure transform. -/
theorem move_in_direction_snd (g : Game2048) (d : MovementDirection) (p : Nat) (f : Bool) :
    (move_in_direction g d p f).2 = (applyMove d g.board).2.2 := by
  unfold move_in_direction
  dsimp only
  rw [save_state_board]
  split <;> rename_i h
  · exact h.symm
  · simp at h
    exact h.symm

theorem move_in_direction_of_moved (g : Game2048) (d : MovementDirection) (p : Nat) (f : Bool)
    (h : (applyMove d g.board).2.2 = true) :
    move_in_direction g d p f =
      (spawn_tile ⟨(applyMove d g.board).1, g.score + (applyMove d g.board).2.1,
        (save_state g).previous_states⟩ p f, true) := by
  unfold move_in_direction
  dsimp only
  rw [save_state_board, save_state_score, if_pos h]

theorem move_in_direction_of_not_moved (g : Game2048) (d : MovementDirection) (p : Nat) (f : Bool)
    (h : (applyMove d g.board).2.2 = false) :
    move_in_direction g d p f =
      (⟨(applyMove d g.board).1, g.score + (applyMove d g.board).2.1,
        (save_state g).previous_states.dropLast⟩, false) := by
  unfold move_in_direction
  dsimp only
  rw [save_state_board, save_state_score, if_neg (by rw [h]; exact Bool.false_ne_true)]

theorem undo_of_nil (g : Game2048) (h : g.previous_states = []) : undo g = (g, false) := by
  unfold undo
  rw [h]
  rfl

theorem undo_of_concat (g : Game2048) (l : List (Board × Nat)) (x : Board × Nat)
    (h : g.previous_states = l ++ [x]) :
    undo g = (⟨x.1, x.2, l⟩, true) := by
  unfold undo
  rw [h, List.getLast?_concat, List.dropLast_concat]

/-! ### Characterisation of the `moved` flag -/

theorem lineGet_length (pos : Fin SIZE → Fin SIZE → Fin SIZE × Fin SIZE) (b : Board)
    (k : Fin SIZE) : (lineGet pos b k).length = SIZE := by
  simp [lineGet]

theorem lineGet_getD (pos : Fin SIZE → Fin SIZE → Fin SIZE × Fin SIZE) (b : Board)
    (k t : Fin SIZE) :
    (lineGet pos b k).getD (t : Nat) 0 = b (pos k t).1 (pos k t).2 := by
  fin_cases t <;> rfl

theorem movedFlag_false_parts (pos : Fin SIZE → Fin SIZE → Fin SIZE × Fin SIZE) (b : Board)
    (h : movedFlag pos b = false) :
    (∀ k, (merge (lineGet pos b k)).2.2 = false) ∧
    (∀ k t, b (pos k t).1 (pos k t).2 = (merge (lineGet pos b k)).1.getD (t : Nat) 0) := by
  simp only [movedFlag, List.any_eq_false, Bool.or_eq_true, List.any_eq_true,
    List.mem_finRange, not_or, not_exists, Bool.not_eq_true, true_implies,
    bne_eq_false_iff_eq] at h
  refine ⟨fun k => (h k).1, fun k t => ?_⟩
  have ht := (h k).2 t
  simp only [true_and, bne_iff_ne, ne_eq, not_not] at ht
  exact ht

theorem movedBoard_of_flag_false (pos idx : Fin SIZE → Fin SIZE → Fin SIZE × Fin SIZE)
    (b : Board) (hip : ∀ i j, pos (idx i j).1 (idx i j).2 = (i, j))
    (h : movedFlag pos b = false) : movedBoard pos idx b = b := by
  funext i j
  have hpart := (movedFlag_false_parts pos b h).2 (idx i j).1 (idx i j).2
  rw [hip i j] at hpart
  exact hpart.symm

theorem movedScore_of_flag_false (pos : Fin SIZE → Fin SIZE → Fin SIZE × Fin SIZE) (b : Board)
    (h : movedFlag pos b = false) : movedScore pos b = 0 := by
  apply List.sum_eq_zero
  intro x hx
  rcases List.mem_map.1 hx with ⟨k, _, rfl⟩
  exact merge_score_of_not_moved _ ((movedFlag_false_parts pos b h).1 k)

theorem movedFlag_false_of_movedBoard_eq (pos idx : Fin SIZE → Fin SIZE → Fin SIZE × Fin SIZE)
    (b : Board) (hpi : ∀ k t, idx (pos k t).1 (pos k t).2 = (k, t))
    (heq : movedBoard pos idx b = b) : movedFlag pos b = false := by
  have hline : ∀ k, (merge (lineGet pos b k)).1 = lineGet pos b k := by
    intro k
    apply list_ext_four _ _ (merge_length _) (lineGet_length pos b k)
    intro t
    rw [lineGet_getD]
    have hcell : movedBoard pos idx b (pos k t).1 (pos k t).2 = b (pos k t).1 (pos k t).2 := by
      rw [heq]
    unfold movedBoard at hcell
    rw [hpi k t] at hcell
    exact hcell
  unfold movedFlag
  apply List.any_eq_false.mpr
  intro k _
  have h1 : (merge (lineGet pos b k)).2.2 = false := by
    cases hmm : (merge (lineGet pos b k)).2.2
    · rfl
    · exact absurd (hline k) (merge_moved_ne _ (lineGet_length pos b k) hmm)
  have h2 : ((List.finRange SIZE).any fun t =>
      b (pos k t).1 (pos k t).2 != (merge (lineGet pos b k)).1.getD (t : Nat) 0) = false := by
    apply List.any_eq_false.mpr
    intro t _
    simp only [bne_iff_ne, ne_eq, not_not]
    rw [hline k, lineGet_getD]
  rw [h1, h2]
  simp

theorem movedBoard_ne_of_flag_true (pos idx : Fin SIZE → Fin SIZE → Fin SIZE × Fin SIZE)
    (b : Board) (hpi : ∀ k t, idx (pos k t).1 (pos k t).2 = (k, t))
    (h : movedFlag pos b = true) : movedBoard pos idx b ≠ b := by
  intro heq
  rw [movedFlag_false_of_movedBoard_eq pos idx b hpi heq] at h
  exact Bool.false_ne_true h

/-- C7: `move_in_direction` returns `true` exactly when the shift-and-merge
transform changed the board.  The returned boolean equals the per-line
disjunction "some line merged or wrote back a different value"
(`movedFlag`), and that boolean is `true` iff the board produced by the
transform (before any tile is spawned) differs from the board before the
move. -/
theorem claim_C7_moved_iff_changed (g : Game2048) (d : MovementDirection) (p : Nat) (f : Bool) :
    (move_in_direction g d p f).2 = movedFlag (posOf d) g.board ∧
    ((move_in_direction g d p f).2 = true ↔ (applyMove d g.board).1 ≠ g.board) := by
  have h1 : (move_in_direction g d p f).2 = movedFlag (posOf d) g.board := by
    rw [move_in_direction_snd, applyMove_eq]
  refine ⟨h1, ?_⟩
  rw [h1, applyMove_eq]
  show movedFlag (posOf d) g.board = true ↔ movedBoard (posOf d) (idxOf d) g.board ≠ g.board
  constructor
  · exact movedBoard_ne_of_flag_true (posOf d) (idxOf d) g.board (idxOf_posOf d)
  · intro hne
    cases hf : movedFlag (posOf d) g.board
    · exact absurd (movedBoard_of_flag_false (posOf d) (idxOf d) g.board (posOf_idxOf d) hf) hne
    · rfl

/-- C4: `game_over` is `true` iff no cell holds 0 and no two horizontally or
vertically adjacent cells hold equal values.  (`game_over` is a pure function
of the board in this embedding, mirroring the side-effect-free scan in the
source.) -/
theorem claim_C4_game_over_iff (b : Board) :
    game_over b = true ↔
      ((∀ i j : Fin SIZE, b i j ≠ 0) ∧
       (∀ i j : Fin SIZE, (j : Nat) < SIZE - 1 → b i j ≠ b i (j + 1)) ∧
       (∀ i j : Fin SIZE, (i : Nat) < SIZE - 1 → b i j ≠ b (i + 1) j)) := by
  unfold game_over
  simp only [List.all_eq_true, List.mem_finRange, true_implies, Bool.and_eq_true,
    Bool.not_and, Bool.or_eq_true, Bool.not_eq_true', beq_eq_false_iff_ne,
    decide_eq_false_iff_not, ne_eq]
  constructor
  · intro h
    refine ⟨fun i j => ((h i j).1.1), fun i j hj => ?_, fun i j hi => ?_⟩
    · rcases (h i j).1.2 with hc | hc
      · exact absurd hj hc
      · exact hc
    · rcases (h i j).2 with hc | hc
      · exact absurd hi hc
      · exact hc
  · intro h i j
    refine ⟨⟨h.1 i j, ?_⟩, ?_⟩
    · by_cases hj : (j : Nat) < SIZE - 1
      · exact Or.inr (h.2.1 i j hj)
      · exact Or.inl hj
    · by_cases hi : (i : Nat) < SIZE - 1
      · exact Or.inr (h.2.2 i j hi)
      · exact Or.inl hi

/-! ### The undo stack after a board-changing move -/

theorem save_state_concat (g : Game2048) : ∃ l,
    (save_state g).previous_states = l ++ [(g.board, g.score)] := by
  unfold save_state
  dsimp only
  by_cases h : UNDO_LIMIT < (g.previous_states ++ [(g.board, g.score)]).length
  · rw [if_pos h]
    cases hps : g.previous_states with
    | nil =>
      rw [hps] at h
      simp [UNDO_LIMIT] at h
    | cons y ys =>
      exact ⟨ys, rfl⟩
  · rw [if_neg h]
    exact ⟨g.previous_states, rfl⟩

/-- C3: after a move that changed the board, `undo` succeeds and restores
exactly the pre-move board and score. -/
theorem claim_C3_undo_round_trip (g : Game2048) (d : MovementDirection) (p : Nat) (f : Bool)
    (h : (move_in_direction g d p f).2 = true) :
    (undo (move_in_direction g d p f).1).2 = true ∧
    (undo (move_in_direction g d p f).1).1.board = g.board ∧
    (undo (move_in_direction g d p f).1).1.score = g.score := by
  rw [move_in_direction_snd] at h
  rw [move_in_direction_of_moved g d p f h]
  obtain ⟨l, hl⟩ := save_state_concat g
  have hps : (spawn_tile ⟨(applyMove d g.board).1, g.score + (applyMove d g.board).2.1,
      (save_state g).previous_states⟩ p f).previous_states = l ++ [(g.board, g.score)] := by
    rw [spawn_tile_previous_states]
    exact hl
  rw [undo_of_concat _ l (g.board, g.score) hps]
  exact ⟨rfl, rfl, rfl⟩

/-- Witness for C3 at a concrete input: moving Left on `gC3` changes the
board, and undoing restores board and score. -/
theorem claim_C3_witness :
    (move_in_direction gC3 .left 0 false).2 = true ∧
    ((undo (move_in_direction gC3 .left 0 false).1).2 = true ∧
     (undo (move_in_direction gC3 .left 0 false).1).1.board = gC3.board ∧
     (undo (move_in_direction gC3 .left 0 false).1).1.score = gC3.score) :=
  ⟨by decide, claim_C3_undo_round_trip gC3 .left 0 false (by decide)⟩

/-- C2 (failing input): on a no-op move with a full history, the code pushes
a snapshot, evicts the oldest one to stay within `UNDO_LIMIT`, and then pops
the fresh snapshot — so the board and score are unchanged and no tile spawns,
but the history shrinks from 10 to 9: the oldest snapshot has been evicted,
contrary to the claim that the history is exactly as before. -/
theorem claim_C2_full_history_noop_evicts :
    (move_in_direction gC2 .left 0 false).2 = false ∧
    (move_in_direction gC2 .left 0 false).1.board = gC2.board ∧
    (move_in_direction gC2 .left 0 false).1.score = gC2.score ∧
    gC2.previous_states.length = UNDO_LIMIT ∧
    (move_in_direction gC2 .left 0 false).1.previous_states.length = UNDO_LIMIT - 1 := by
  decide

/-- C1: for every length-4 line, `Game2048::merge` computes the spec's
reference algorithm (`specMerge`): scan left-to-right skipping zeros, merge
each non-zero cell with the next non-zero equal cell, score the pre-merge
value, never re-merge a freshly merged cell, then compact and pad to length
N = 4 with trailing zeros.  In particular `[2,0,2,2]` merges to `[4,2,0,0]`
with a score gain of exactly 2. -/
theorem claim_C1_merge_reference :
    (∀ line : List Nat, line.length = SIZE →
      (merge line).1 = (specMerge line).1 ∧ (merge line).2.1 = (specMerge line).2) ∧
    (merge [2, 0, 2, 2]).1 = [4, 2, 0, 0] ∧ (merge [2, 0, 2, 2]).2.1 = 2 := by
  refine ⟨?_, by decide, by decide⟩
  intro line h
  obtain ⟨a, b, c, d, rfl⟩ := length_four_cases line h
  exact merge_eq_specMerge a b c d

/-- Witness for C1 at the concrete line `[2,0,2,2]`. -/
theorem claim_C1_witness :
    ([2, 0, 2, 2] : List Nat).length = SIZE ∧
    ((merge [2, 0, 2, 2]).1 = (specMerge [2, 0, 2, 2]).1 ∧
     (merge [2, 0, 2, 2]).2.1 = (specMerge [2, 0, 2, 2]).2) :=
  ⟨rfl, claim_C1_merge_reference.1 [2, 0, 2, 2] rfl⟩

/-! ### Orientation correspondence (claim C8) -/

theorem move_up_eq (b : Board) :
    move_up b = (movedBoard (posOf .up) (idxOf .up) b, movedScore (posOf .up) b,
      movedFlag (posOf .up) b) :=
  dirFold_closed (posOf .up) (idxOf .up) b (idxOf_posOf .up)

theorem move_down_eq (b : Board) :
    move_down b = (movedBoard (posOf .down) (idxOf .down) b, movedScore (posOf .down) b,
      movedFlag (posOf .down) b) :=
  dirFold_closed (posOf .down) (idxOf .down) b (idxOf_posOf .down)

theorem move_left_eq (b : Board) :
    move_left b = (movedBoard (posOf .left) (idxOf .left) b, movedScore (posOf .left) b,
      movedFlag (posOf .left) b) :=
  dirFold_closed (posOf .left) (idxOf .left) b (idxOf_posOf .left)

theorem move_right_eq (b : Board) :
    move_right b = (movedBoard (posOf .right) (idxOf .right) b, movedScore (posOf .right) b,
      movedFlag (posOf .right) b) :=
  dirFold_closed (posOf .right) (idxOf .right) b (idxOf_posOf .right)

/-- C8: all four directions are the one merge primitive plus orientation.
Moving Right is: reverse each row, apply the Left transform, reverse back on
write — board, score gain, and changed flag all coincide.  Moving Down
equals the same correspondence with Up along columns. -/
theorem claim_C8_orientation (b : Board) :
    ((move_right b).1 = revRows (move_left (revRows b)).1 ∧
     (move_right b).2.1 = (move_left (revRows b)).2.1 ∧
     (move_right b).2.2 = (move_left (revRows b)).2.2) ∧
    ((move_down b).1 = revCols (move_up (revCols b)).1 ∧
     (move_down b).2.1 = (move_up (revCols b)).2.1 ∧
     (move_down b).2.2 = (move_up (revCols b)).2.2) := by
  rw [move_right_eq, move_left_eq (revRows b), move_down_eq, move_up_eq (revCols b)]
  refine ⟨⟨?_, rfl, rfl⟩, ⟨?_, rfl, rfl⟩⟩
  · funext i j
    rfl
  · funext i j
    rfl

/-! ### Board totals (claim C9) -/

theorem boardSum_movedBoard (pos idx : Fin SIZE → Fin SIZE → Fin SIZE × Fin SIZE) (b : Board)
    (hpi : ∀ k t, idx (pos k t).1 (pos k t).2 = (k, t))
    (hip : ∀ i j, pos (idx i j).1 (idx i j).2 = (i, j)) :
    boardSum (movedBoard pos idx b) = boardSum b := by
  have hbij : Function.Bijective (fun c : Fin SIZE × Fin SIZE => idx c.1 c.2) := by
    constructor
    · rintro ⟨x1, x2⟩ ⟨y1, y2⟩ hxy
      have h2 : pos (idx x1 x2).1 (idx x1 x2).2 = pos (idx y1 y2).1 (idx y1 y2).2 := by
        simp only at hxy
        rw [hxy]
      rw [hip x1 x2, hip y1 y2] at h2
      exact h2
    · rintro ⟨k, t⟩
      exact ⟨pos k t, hpi k t⟩
  have hbij' : Function.Bijective (fun c : Fin SIZE × Fin SIZE => pos c.1 c.2) := by
    constructor
    · rintro ⟨x1, x2⟩ ⟨y1, y2⟩ hxy
      have h2 : idx (pos x1 x2).1 (pos x1 x2).2 = idx (pos y1 y2).1 (pos y1 y2).2 := by
        simp only at hxy
        rw [hxy]
      rw [hpi x1 x2, hpi y1 y2] at h2
      exact h2
    · rintro ⟨i, j⟩
      exact ⟨idx i j, hip i j⟩
  calc boardSum (movedBoard pos idx b)
      = ∑ c : Fin SIZE × Fin SIZE,
          (merge (lineGet pos b (idx c.1 c.2).1)).1.getD (((idx c.1 c.2).2 : Nat)) 0 := by
        rw [boardSum, Fintype.sum_prod_type]
        apply Finset.sum_congr rfl
        intro i _
        apply Finset.sum_congr rfl
        intro j _
        rfl
    _ = ∑ c : Fin SIZE × Fin SIZE, (merge (lineGet pos b c.1)).1.getD ((c.2 : Nat)) 0 :=
        Fintype.sum_bijective _ hbij
          (fun c => (merge (lineGet pos b (idx c.1 c.2).1)).1.getD (((idx c.1 c.2).2 : Nat)) 0)
          (fun c => (merge (lineGet pos b c.1)).1.getD ((c.2 : Nat)) 0)
          (fun c => rfl)
    _ = ∑ k : Fin SIZE, ∑ t : Fin SIZE, (merge (lineGet pos b k)).1.getD ((t : Nat)) 0 := by
        rw [Fintype.sum_prod_type]
    _ = ∑ k : Fin SIZE, (merge (lineGet pos b k)).1.sum := by
        apply Finset.sum_congr rfl
        intro k _
        rw [sum_eq_sum_getD _ (merge_length _)]
    _ = ∑ k : Fin SIZE, (lineGet pos b k).sum := by
        apply Finset.sum_congr rfl
        intro k _
        rw [merge_sum _ (Nat.le_of_eq (lineGet_length pos b k))]
    _ = ∑ k : Fin SIZE, ∑ t : Fin SIZE, b (pos k t).1 (pos k t).2 := by
        apply Finset.sum_congr rfl
        intro k _
        rw [sum_eq_sum_getD _ (lineGet_length pos b k)]
        apply Finset.sum_congr rfl
        intro t _
        rw [lineGet_getD]
    _ = ∑ c : Fin SIZE × Fin SIZE, b (pos c.1 c.2).1 (pos c.1 c.2).2 := by
        rw [Fintype.sum_prod_type]
    _ = ∑ c : Fin SIZE × Fin SIZE, b c.1 c.2 :=
        Fintype.sum_bijective _ hbij'
          (fun c => b (pos c.1 c.2).1 (pos c.1 c.2).2)
          (fun c => b c.1 c.2)
          (fun c => rfl)
    _ = boardSum b := by
        rw [boardSum, Fintype.sum_prod_type]

/-- A board-changing transform leaves an empty cell somewhere. -/
theorem movedBoard_zero_of_flag_true (pos idx : Fin SIZE → Fin SIZE → Fin SIZE × Fin SIZE)
    (b : Board) (hpi : ∀ k t, idx (pos k t).1 (pos k t).2 = (k, t))
    (h : movedFlag pos b = true) :
    ∃ i j, movedBoard pos idx b i j = 0 := by
  simp only [movedFlag, List.any_eq_true, List.mem_finRange, true_and, Bool.or_eq_true,
    bne_iff_ne, ne_eq] at h
  obtain ⟨k, hk⟩ := h
  have hzero : 0 ∈ (merge (lineGet pos b k)).1 := by
    apply merge_changed_zero_mem _ (lineGet_length pos b k)
    rcases hk with hk | hk
    · exact Or.inl hk
    · right
      obtain ⟨t, ht⟩ := hk
      intro hcon
      rw [hcon, lineGet_getD] at ht
      exact ht rfl
  obtain ⟨n, hn, hval⟩ := List.getElem_of_mem hzero
  rw [merge_length] at hn
  refine ⟨(pos k ⟨n, hn⟩).1, (pos k ⟨n, hn⟩).2, ?_⟩
  show (merge (lineGet pos b (idx (pos k ⟨n, hn⟩).1 (pos k ⟨n, hn⟩).2).1)).1.getD
    (((idx (pos k ⟨n, hn⟩).1 (pos k ⟨n, hn⟩).2).2 : Nat)) 0 = 0
  rw [hpi k ⟨n, hn⟩]
  show (merge (lineGet pos b k)).1.getD n 0 = 0
  rw [List.getD_eq_getElem?_getD, List.getElem?_eq_getElem (by rw [merge_length]; exact hn)]
  simpa using hval

theorem emptyCells_mem (b : Board) (c : Fin SIZE × Fin SIZE) :
    c ∈ emptyCells b ↔ b c.1 c.2 = 0 := by
  rcases c with ⟨ci, cj⟩
  simp only [emptyCells, List.mem_flatMap, List.mem_map, List.mem_filter,
    List.mem_finRange, true_and, beq_iff_eq, Prod.mk.injEq]
  constructor
  · rintro ⟨i, j, hz, rfl, rfl⟩
    exact hz
  · intro hz
    exact ⟨ci, cj, hz, rfl, rfl⟩

theorem spawn_tile_of_nonempty (g : Game2048) (p : Nat) (f : Bool)
    (h : emptyCells g.board ≠ []) :
    ∃ c : Fin SIZE × Fin SIZE, g.board c.1 c.2 = 0 ∧
      spawn_tile g p f = { g with board := fun i j =>
        if i = c.1 ∧ j = c.2 then (if f then 4 else 2) else g.board i j } := by
  unfold spawn_tile
  dsimp only
  rw [if_neg (by simpa [List.isEmpty_iff] using h)]
  have hlen : 0 < (emptyCells g.board).length := List.length_pos.2 h
  refine ⟨(emptyCells g.board).getD (p % (emptyCells g.board).length) (0, 0), ?_, rfl⟩
  exact (emptyCells_mem g.board _).1
    (getD_mem_of_lt _ _ _ (Nat.mod_lt _ hlen))

theorem boardSum_update (b : Board) (c : Fin SIZE × Fin SIZE) (v : Nat)
    (h : b c.1 c.2 = 0) :
    boardSum (fun i j => if i = c.1 ∧ j = c.2 then v else b i j) = boardSum b + v := by
  rcases c with ⟨ci, cj⟩
  simp only at h
  have hinner : ∀ i : Fin SIZE, (∑ j : Fin SIZE, if i = ci ∧ j = cj then v else b i j) =
      Function.update (fun x : Fin SIZE => ∑ j : Fin SIZE, b x j) ci
        ((∑ j : Fin SIZE, b ci j) + v) i := by
    intro i
    by_cases hi : i = ci
    · rw [hi, Function.update_same]
      calc (∑ j : Fin SIZE, if ci = ci ∧ j = cj then v else b ci j)
          = ∑ j : Fin SIZE, Function.update (b ci) cj v j := by
            apply Finset.sum_congr rfl
            intro j _
            rw [Function.update_apply]
            simp
        _ = v + ∑ j in Finset.univ \ {cj}, b ci j :=
            Finset.sum_update_of_mem (Finset.mem_univ cj) (b ci) v
        _ = v + ∑ j in Finset.univ.erase cj, b ci j := by
            rw [Finset.sdiff_singleton_eq_erase]
        _ = v + ∑ j : Fin SIZE, b ci j := by
            rw [Finset.sum_erase Finset.univ h]
        _ = (∑ j : Fin SIZE, b ci j) + v := Nat.add_comm _ _
    · rw [Function.update_noteq hi]
      apply Finset.sum_congr rfl
      intro j _
      rw [if_neg (fun hc => hi hc.1)]
  rw [boardSum]
  calc (∑ i : Fin SIZE, ∑ j : Fin SIZE, if i = ci ∧ j = cj then v else b i j)
      = ∑ i : Fin SIZE, Function.update (fun x : Fin SIZE => ∑ j : Fin SIZE, b x j) ci
          ((∑ j : Fin SIZE, b ci j) + v) i := by
        apply Finset.sum_congr rfl
        intro i _
        exact hinner i
    _ = ((∑ j : Fin SIZE, b ci j) + v) + ∑ i in Finset.univ \ {ci}, ∑ j : Fin SIZE, b i j :=
        Finset.sum_update_of_mem (Finset.mem_univ ci) _ _
    _ = boardSum b + v := by
        rw [Finset.sdiff_singleton_eq_erase]
        have h2 : (∑ j : Fin SIZE, b ci j) +
            (∑ i in Finset.univ.erase ci, ∑ j : Fin SIZE, b i j) = boardSum b := by
          rw [boardSum]
          exact Finset.add_sum_erase Finset.univ (fun i => ∑ j : Fin SIZE, b i j)
            (Finset.mem_univ ci)
        omega

/-- C9: the merge primitive preserves the sum of a line's entries, and a
move changes the board total by exactly the spawned tile's value (2 or 4)
when it returns `true`, and not at all when it returns `false`. -/
theorem claim_C9_total_conservation :
    (∀ line : List Nat, line.length = SIZE → (merge line).1.sum = line.sum) ∧
    (∀ (g : Game2048) (d : MovementDirection) (p : Nat) (f : Bool),
      ((move_in_direction g d p f).2 = true →
        ∃ v, (v = 2 ∨ v = 4) ∧
          boardSum (move_in_direction g d p f).1.board = boardSum g.board + v) ∧
      ((move_in_direction g d p f).2 = false →
        boardSum (move_in_direction g d p f).1.board = boardSum g.board)) := by
  constructor
  · intro line h
    exact merge_sum line (Nat.le_of_eq h)
  · intro g d p f
    constructor
    · intro h
      rw [move_in_direction_snd] at h
      rw [move_in_direction_of_moved g d p f h]
      have hflag : movedFlag (posOf d) g.board = true := by
        rw [applyMove_eq] at h
        exact h
      have hboard : (applyMove d g.board).1 = movedBoard (posOf d) (idxOf d) g.board := by
        rw [applyMove_eq]
      obtain ⟨i0, j0, hz⟩ := movedBoard_zero_of_flag_true (posOf d) (idxOf d) g.board
        (idxOf_posOf d) hflag
      set g2 : Game2048 := ⟨(applyMove d g.board).1, g.score + (applyMove d g.board).2.1,
        (save_state g).previous_states⟩ with hg2
      have hne : emptyCells g2.board ≠ [] := by
        apply List.ne_nil_of_mem ((emptyCells_mem g2.board (i0, j0)).2 ?_)
        show (applyMove d g.board).1 i0 j0 = 0
        rw [hboard]
        exact hz
      obtain ⟨c, hc0, hceq⟩ := spawn_tile_of_nonempty g2 p f hne
      rw [hceq]
      refine ⟨if f then 4 else 2, by cases f <;> simp, ?_⟩
      show boardSum (fun i j => if i = c.1 ∧ j = c.2 then (if f then 4 else 2) else g2.board i j)
        = boardSum g.board + (if f then 4 else 2)
      rw [boardSum_update g2.board c _ hc0]
      have hsum : boardSum g2.board = boardSum g.board := by
        show boardSum (applyMove d g.board).1 = boardSum g.board
        rw [hboard]
        exact boardSum_movedBoard _ _ _ (idxOf_posOf d) (posOf_idxOf d)
      rw [hsum]
    · intro h
      rw [move_in_direction_snd] at h
      rw [move_in_direction_of_not_moved g d p f h]
      show boardSum (applyMove d g.board).1 = boardSum g.board
      have hflag : movedFlag (posOf d) g.board = false := by
        rw [applyMove_eq] at h
        exact h
      have hboard : (applyMove d g.board).1 = movedBoard (posOf d) (idxOf d) g.board := by
        rw [applyMove_eq]
      rw [hboard, movedBoard_of_flag_false _ _ _ (posOf_idxOf d) hflag]

/-- Witness for C9: the merge part at `[2,0,2,2]` and the move part at the
concrete changing move of `gC3`. -/
theorem claim_C9_witness :
    (([2, 0, 2, 2] : List Nat).length = SIZE ∧
     (merge [2, 0, 2, 2]).1.sum = ([2, 0, 2, 2] : List Nat).sum) ∧
    ((move_in_direction gC3 .left 0 false).2 = true ∧
     ∃ v, (v = 2 ∨ v = 4) ∧
       boardSum (move_in_direction gC3 .left 0 false).1.board = boardSum gC3.board + v) :=
  ⟨⟨rfl, claim_C9_total_conservation.1 [2, 0, 2, 2] rfl⟩,
   ⟨by decide, (claim_C9_total_conservation.2 gC3 .left 0 false).1 (by decide)⟩⟩

/-! ### Operation sequences and the power-of-two invariant (claim C6) -/

theorem movedBoard_tileOK (pos idx : Fin SIZE → Fin SIZE → Fin SIZE × Fin SIZE) (b : Board)
    (hb : ∀ i j, TileOK (b i j)) : ∀ i j, TileOK (movedBoard pos idx b i j) := by
  intro i j
  show TileOK ((merge (lineGet pos b (idx i j).1)).1.getD (((idx i j).2 : Nat)) 0)
  have hline : ∀ x ∈ lineGet pos b (idx i j).1, TileOK x := by
    intro x hx
    unfold lineGet at hx
    rcases List.mem_map.1 hx with ⟨t, _, rfl⟩
    exact hb _ _
  rcases getD_mem_or_default (merge (lineGet pos b (idx i j).1)).1 (((idx i j).2 : Nat)) 0 with
    hmem | hdef
  · exact merge_tileOK _ hline _ hmem
  · rw [hdef]
    exact tileOK_zero

theorem goodGame_spawn (g : Game2048) (p : Nat) (f : Bool) (h : GoodGame g) :
    GoodGame (spawn_tile g p f) := by
  unfold spawn_tile
  dsimp only
  by_cases he : (emptyCells g.board).isEmpty
  · rw [if_pos he]
    exact h
  · rw [if_neg he]
    refine ⟨?_, h.2⟩
    intro i j
    dsimp only
    split
    · cases f
      · exact tileOK_two
      · exact tileOK_four
    · exact h.1 i j

theorem goodGame_save (g : Game2048) (h : GoodGame g) : GoodGame (save_state g) := by
  refine ⟨h.1, ?_⟩
  intro s hs i j
  unfold save_state at hs
  dsimp only at hs
  have hs' : s ∈ g.previous_states ++ [(g.board, g.score)] := by
    by_cases hc : UNDO_LIMIT < (g.previous_states ++ [(g.board, g.score)]).length
    · rw [if_pos hc] at hs
      exact List.mem_of_mem_tail hs
    · rw [if_neg hc] at hs
      exact hs
  rcases List.mem_append.1 hs' with hmem | hmem
  · exact h.2 s hmem i j
  · have hx : s = (g.board, g.score) := by simpa using hmem
    rw [hx]
    exact h.1 i j

theorem goodGame_move (g : Game2048) (d : MovementDirection) (p : Nat) (f : Bool)
    (h : GoodGame g) : GoodGame (move_in_direction g d p f).1 := by
  have hcells : ∀ i j, TileOK ((applyMove d g.board).1 i j) := by
    intro i j
    rw [applyMove_eq]
    exact movedBoard_tileOK _ _ _ h.1 i j
  by_cases hm : (applyMove d g.board).2.2 = true
  · rw [move_in_direction_of_moved g d p f hm]
    dsimp only
    apply goodGame_spawn
    exact ⟨hcells, (goodGame_save g h).2⟩
  · have hm' : (applyMove d g.board).2.2 = false := by
      cases hmm : (applyMove d g.board).2.2
      · rfl
      · exact absurd hmm hm
    rw [move_in_direction_of_not_moved g d p f hm']
    refine ⟨hcells, ?_⟩
    intro s hs
    exact (goodGame_save g h).2 s ((List.dropLast_sublist _).subset hs)

theorem goodGame_undo (g : Game2048) (h : GoodGame g) : GoodGame (undo g).1 := by
  rcases List.eq_nil_or_concat g.previous_states with hnil | ⟨l, x, hconc⟩
  · rw [undo_of_nil g hnil]
    exact h
  · rw [List.concat_eq_append] at hconc
    rw [undo_of_concat g l x hconc]
    constructor
    · intro i j
      show TileOK (x.1 i j)
      apply h.2 x ?_ i j
      rw [hconc]
      exact List.mem_append_right l (by simp)
    · intro s hs
      apply h.2 s
      rw [hconc]
      exact List.mem_append_left _ hs

theorem goodGame_init (p1 : Nat) (f1 : Bool) (p2 : Nat) (f2 : Bool) :
    GoodGame (defaultGame p1 f1 p2 f2) := by
  apply goodGame_spawn
  apply goodGame_spawn
  exact ⟨fun _ _ => tileOK_zero, fun s hs => absurd hs (List.not_mem_nil s)⟩

theorem goodGame_exec (g : Game2048) (h : GoodGame g) (ops : List Op) :
    GoodGame (execOps g ops) := by
  induction ops generalizing g with
  | nil => exact h
  | cons op rest ih =>
    cases op with
    | move d p f => exact ih _ (goodGame_move g d p f h)
    | undoOp => exact ih _ (goodGame_undo g h)

/-- C6: starting from a freshly constructed game, after any finite sequence
of moves and undos every board cell is 0 or a power of two that is at
least 2. -/
theorem claim_C6_cells_powers_of_two (p1 : Nat) (f1 : Bool) (p2 : Nat) (f2 : Bool)
    (ops : List Op) (i j : Fin SIZE) :
    (execOps (defaultGame p1 f1 p2 f2) ops).board i j = 0 ∨
    ∃ k : Nat, (execOps (defaultGame p1 f1 p2 f2) ops).board i j = 2 ^ (k + 1) :=
  (goodGame_exec _ (goodGame_init p1 f1 p2 f2) ops).1 i j

/-- C10: a freshly constructed game has score 0 and an empty undo history
(so an immediate undo fails and changes nothing), and exactly two non-zero
cells, each 2 or 4, at two distinct positions. -/
theorem claim_C10_default_game (p1 : Nat) (f1 : Bool) (p2 : Nat) (f2 : Bool) :
    (defaultGame p1 f1 p2 f2).score = 0 ∧
    (defaultGame p1 f1 p2 f2).previous_states = [] ∧
    undo (defaultGame p1 f1 p2 f2) = (defaultGame p1 f1 p2 f2, false) ∧
    ∃ c1 c2 : Fin SIZE × Fin SIZE, c1 ≠ c2 ∧
      ((defaultGame p1 f1 p2 f2).board c1.1 c1.2 = 2 ∨
       (defaultGame p1 f1 p2 f2).board c1.1 c1.2 = 4) ∧
      ((defaultGame p1 f1 p2 f2).board c2.1 c2.2 = 2 ∨
       (defaultGame p1 f1 p2 f2).board c2.1 c2.2 = 4) ∧
      ∀ c : Fin SIZE × Fin SIZE, c ≠ c1 → c ≠ c2 →
        (defaultGame p1 f1 p2 f2).board c.1 c.2 = 0 := by
  have hg0 : ∃ g0 : Game2048, g0 = ⟨fun _ _ => 0, 0, []⟩ := ⟨_, rfl⟩
  obtain ⟨g0, hg0⟩ := hg0
  have hdg : defaultGame p1 f1 p2 f2 = spawn_tile (spawn_tile g0 p1 f1) p2 f2 := by
    rw [hg0]
    rfl
  have hne1 : emptyCells g0.board ≠ [] := by
    apply List.ne_nil_of_mem ((emptyCells_mem g0.board ((0 : Fin SIZE), (0 : Fin SIZE))).2 ?_)
    rw [hg0]
  obtain ⟨c1, hc1z, hs1⟩ := spawn_tile_of_nonempty g0 p1 f1 hne1
  have hb1 : (spawn_tile g0 p1 f1).board = fun i j =>
      if i = c1.1 ∧ j = c1.2 then (if f1 then 4 else 2) else g0.board i j := by
    rw [hs1]
  have hb1c1 : (spawn_tile g0 p1 f1).board c1.1 c1.2 = (if f1 then 4 else 2) := by
    rw [hb1]
    simp
  have hb1other : ∀ c : Fin SIZE × Fin SIZE, c ≠ c1 → (spawn_tile g0 p1 f1).board c.1 c.2 = 0 := by
    intro c hc
    rw [hb1]
    dsimp only
    rw [if_neg, hg0]
    intro hand
    exact hc (Prod.ext_iff.mpr hand)
  have hv1 : (if f1 then 4 else 2) ≠ 0 := by
    cases f1 <;> simp
  -- a second empty cell always exists
  have hc' : ∃ c' : Fin SIZE × Fin SIZE, c' ≠ c1 := by
    by_cases hcc : c1 = ((0 : Fin SIZE), (0 : Fin SIZE))
    · exact ⟨((0 : Fin SIZE), (1 : Fin SIZE)), by rw [hcc]; decide⟩
    · exact ⟨((0 : Fin SIZE), (0 : Fin SIZE)), fun hcon => hcc hcon.symm⟩
  obtain ⟨c', hc'ne⟩ := hc'
  have hne2 : emptyCells (spawn_tile g0 p1 f1).board ≠ [] := by
    apply List.ne_nil_of_mem ((emptyCells_mem _ c').2 ?_)
    exact hb1other c' hc'ne
  obtain ⟨c2, hc2z, hs2⟩ := spawn_tile_of_nonempty (spawn_tile g0 p1 f1) p2 f2 hne2
  have hc2ne : c2 ≠ c1 := by
    intro hcon
    rw [hcon, hb1c1] at hc2z
    exact hv1 hc2z
  have hb2 : (defaultGame p1 f1 p2 f2).board = fun i j =>
      if i = c2.1 ∧ j = c2.2 then (if f2 then 4 else 2)
      else (spawn_tile g0 p1 f1).board i j := by
    rw [hdg, hs2]
  have hscore : (defaultGame p1 f1 p2 f2).score = 0 := by
    rw [hdg, spawn_tile_score, spawn_tile_score, hg0]
  have hprev : (defaultGame p1 f1 p2 f2).previous_states = [] := by
    rw [hdg, spawn_tile_previous_states, spawn_tile_previous_states, hg0]
  refine ⟨hscore, hprev, undo_of_nil _ hprev, c1, c2, fun hcon => hc2ne hcon.symm, ?_, ?_, ?_⟩
  · rw [hb2]
    dsimp only
    rw [if_neg, hb1c1]
    · cases f1
      · exact Or.inl rfl
      · exact Or.inr rfl
    · intro hand
      exact hc2ne (Prod.ext_iff.mpr ⟨hand.1.symm, hand.2.symm⟩)
  · rw [hb2]
    dsimp only
    rw [if_pos ⟨rfl, rfl⟩]
    cases f2
    · exact Or.inl rfl
    · exact Or.inr rfl
  · intro c hcne1 hcne2
    rw [hb2]
    dsimp only
    rw [if_neg]
    · exact hb1other c hcne1
    · intro hand
      exact hcne2 (Prod.ext_iff.mpr hand)

/-! ### Undo capacity (claim C5) -/

theorem lastN_of_le (n : Nat) (l : List (Board × Nat)) (h : l.length ≤ n) :
    lastN n l = l := by
  unfold lastN
  rw [Nat.sub_eq_zero_of_le h, List.drop_zero]

theorem lastN_length_le (n : Nat) (l : List (Board × Nat)) : (lastN n l).length ≤ n := by
  unfold lastN
  rw [List.length_drop]
  omega

theorem lastN_absorb (n : Nat) (t m : List (Board × Nat)) :
    lastN n (lastN n t ++ m) = lastN n (t ++ m) := by
  unfold lastN
  have h1 : t.drop (t.length - n) ++ m = (t ++ m).drop (t.length - n) :=
    (List.drop_append_of_le_length (Nat.sub_le _ _)).symm
  rw [h1, List.length_drop, List.drop_drop]
  congr 1
  simp only [List.length_append]
  omega

theorem lastN_cons_of_length (n : Nat) (x : Board × Nat) (t : List (Board × Nat))
    (h : t.length = n) : lastN n (x :: t) = t := by
  unfold lastN
  simp only [List.length_cons, h]
  have h1 : n + 1 - n = 1 := by omega
  rw [h1]
  rfl

theorem capPush_eq_lastN (l : List (Board × Nat)) (x : Board × Nat)
    (h : l.length ≤ UNDO_LIMIT) : capPush l x = lastN UNDO_LIMIT (l ++ [x]) := by
  unfold capPush lastN
  by_cases h1 : UNDO_LIMIT < (l ++ [x]).length
  · rw [if_pos h1]
    have h2 : (l ++ [x]).length - UNDO_LIMIT = 1 := by
      simp only [List.length_append, List.length_singleton] at h1 ⊢
      omega
    rw [h2, List.drop_one]
  · rw [if_neg h1]
    have h2 : (l ++ [x]).length - UNDO_LIMIT = 0 := by
      simp only [List.length_append, List.length_singleton] at h1 ⊢
      omega
    rw [h2, List.drop_zero]

theorem capPush_length_le (l : List (Board × Nat)) (x : Board × Nat)
    (h : l.length ≤ UNDO_LIMIT) : (capPush l x).length ≤ UNDO_LIMIT := by
  rw [capPush_eq_lastN l x h]
  exact lastN_length_le _ _

theorem take_succ_getD {α : Type} (l : List α) (m : Nat) (d : α) (h : m < l.length) :
    l.take (m + 1) = l.take m ++ [l.getD m d] := by
  induction l generalizing m with
  | nil => simp at h
  | cons a t ih =>
    cases m with
    | zero => rfl
    | succ m' =>
      simp only [List.take_succ_cons, List.getD_cons_succ, List.cons_append]
      rw [ih m' (by simp only [List.length_cons] at h; omega)]

theorem getD_take_of_lt {α : Type} (l : List α) (n i : Nat) (d : α) (h : i < n) :
    (l.take n).getD i d = l.getD i d := by
  induction l generalizing n i with
  | nil => simp [List.take_nil]
  | cons a t ih =>
    cases n with
    | zero => omega
    | succ n' =>
      cases i with
      | zero => rfl
      | succ i' =>
        simp only [List.take_succ_cons, List.getD_cons_succ]
        exact ih n' i' (by omega)

theorem getD_map_pair (l : List Game2048) (i : Nat) (d : Game2048) :
    (l.map (fun h => (h.board, h.score))).getD i (d.board, d.score)
      = ((l.getD i d).board, (l.getD i d).score) := by
  induction l generalizing i with
  | nil => simp only [List.map_nil, List.getD_nil]
  | cons a t ih =>
    cases i with
    | zero => simp only [List.map_cons, List.getD_cons_zero]
    | succ i' =>
      simp only [List.map_cons, List.getD_cons_succ]
      exact ih i'

/-- A board-changing move turns the history into `capPush` of the pre-move
snapshot: the snapshot survives, evicting the oldest one at capacity. -/
theorem move_changed_previous (g : Game2048) (d : MovementDirection) (p : Nat) (f : Bool)
    (h : (move_in_direction g d p f).2 = true) :
    (move_in_direction g d p f).1.previous_states
      = capPush g.previous_states (g.board, g.score) := by
  rw [move_in_direction_snd] at h
  rw [move_in_direction_of_moved g d p f h]
  show (spawn_tile ⟨(applyMove d g.board).1, g.score + (applyMove d g.board).2.1,
        (save_state g).previous_states⟩ p f).previous_states
      = capPush g.previous_states (g.board, g.score)
  rw [spawn_tile_previous_states]
  rfl

theorem trajAux_length (args : List (MovementDirection × Nat × Bool)) :
    ∀ (g : Game2048) (gs : List Game2048),
      trajAux g args = some gs → gs.length = args.length := by
  induction args with
  | nil =>
    intro g gs h
    simp only [trajAux, Option.some.injEq] at h
    rw [← h]
    rfl
  | cons a rest ih =>
    intro g gs h
    simp only [trajAux] at h
    cases hc : (move_in_direction g a.1 a.2.1 a.2.2).2 with
    | false =>
      rw [hc] at h
      simp at h
    | true =>
      rw [hc, if_pos rfl] at h
      cases htr : trajAux (move_in_direction g a.1 a.2.1 a.2.2).1 rest with
      | none =>
        rw [htr] at h
        simp at h
      | some gs' =>
        rw [htr] at h
        simp only [Option.map_some', Option.some.injEq] at h
        rw [← h]
        simp only [List.length_cons, ih _ gs' htr]

/-- Main invariant of a run of board-changing moves: the final history is
the last `UNDO_LIMIT` of the initial history followed by the pre-move
snapshots, in chronological order. -/
theorem trajAux_prev (args : List (MovementDirection × Nat × Bool)) :
    ∀ (g : Game2048) (gs : List Game2048), trajAux g args = some gs →
      g.previous_states.length ≤ UNDO_LIMIT →
      (gs.getLastD g).previous_states
        = lastN UNDO_LIMIT (g.previous_states
            ++ (g :: gs).dropLast.map fun h => (h.board, h.score)) := by
  induction args with
  | nil =>
    intro g gs h hlen
    simp only [trajAux, Option.some.injEq] at h
    rw [← h]
    show g.previous_states = lastN UNDO_LIMIT (g.previous_states ++ [])
    rw [List.append_nil, lastN_of_le _ _ hlen]
  | cons a rest ih =>
    intro g gs h hlen
    simp only [trajAux] at h
    cases hc : (move_in_direction g a.1 a.2.1 a.2.2).2 with
    | false =>
      rw [hc] at h
      simp at h
    | true =>
      rw [hc, if_pos rfl] at h
      cases htr : trajAux (move_in_direction g a.1 a.2.1 a.2.2).1 rest with
      | none =>
        rw [htr] at h
        simp at h
      | some gs' =>
        rw [htr] at h
        simp only [Option.map_some', Option.some.injEq] at h
        rw [← h]
        have hprev := move_changed_previous g a.1 a.2.1 a.2.2 hc
        have hlen' :
            (move_in_direction g a.1 a.2.1 a.2.2).1.previous_states.length ≤ UNDO_LIMIT := by
          rw [hprev]
          exact capPush_length_le _ _ hlen
        have hih := ih (move_in_direction g a.1 a.2.1 a.2.2).1 gs' htr hlen'
        rw [List.getLastD_cons, hih, hprev, capPush_eq_lastN _ _ hlen, lastN_absorb]
        congr 1
        rw [List.append_assoc, List.singleton_append]
        congr 1

theorem undoN_succ_back (k : Nat) : ∀ g : Game2048, undoN g (k + 1) = (undo (undoN g k)).1 := by
  induction k with
  | zero =>
    intro g
    rfl
  | succ k' ih =>
    intro g
    show undoN (undo g).1 (k' + 1) = (undo (undoN (undo g).1 k')).1
    exact ih (undo g).1

theorem undoN_take (l : List (Board × Nat)) (g : Game2048) (hps : g.previous_states = l) :
    ∀ k, k ≤ l.length → (undoN g k).previous_states = l.take (l.length - k) := by
  intro k
  induction k with
  | zero =>
    intro _
    show g.previous_states = l.take (l.length - 0)
    rw [hps, Nat.sub_zero, List.take_length]
  | succ k' ih =>
    intro hk
    have hprev := ih (Nat.le_of_succ_le hk)
    have hpos : l.length - k' = (l.length - (k' + 1)) + 1 := by omega
    have hdec : l.take (l.length - k')
        = l.take (l.length - (k' + 1))
            ++ [l.getD (l.length - (k' + 1)) (g.board, g.score)] := by
      rw [hpos]
      exact take_succ_getD l _ _ (by omega)
    rw [undoN_succ_back]
    rw [undo_of_concat (undoN g k') _ _ (hprev.trans hdec)]

/-- While snapshots remain, the `(k+1)`-st undo pops the `k`-th snapshot
from the back and restores it. -/
theorem undo_undoN_of_lt (l : List (Board × Nat)) (g : Game2048)
    (hps : g.previous_states = l) (k : Nat) (hk : k < l.length) (d : Board × Nat) :
    undo (undoN g k)
      = (⟨(l.getD (l.length - 1 - k) d).1, (l.getD (l.length - 1 - k) d).2,
          l.take (l.length - 1 - k)⟩, true) := by
  have hprev := undoN_take l g hps k (Nat.le_of_lt hk)
  have hpos : l.length - k = (l.length - 1 - k) + 1 := by omega
  have hdec : l.take (l.length - k)
      = l.take (l.length - 1 - k) ++ [l.getD (l.length - 1 - k) d] := by
    rw [hpos]
    exact take_succ_getD l _ _ (by omega)
  exact undo_of_concat _ _ _ (hprev.trans hdec)

theorem undo_undoN_exhaust (l : List (Board × Nat)) (g : Game2048)
    (hps : g.previous_states = l) :
    (undo (undoN g l.length)).2 = false := by
  have hprev := undoN_take l g hps l.length (Nat.le_refl _)
  rw [Nat.sub_self, List.take_zero] at hprev
  rw [undo_of_nil _ hprev]

/-- C5: the undo history is bounded at capacity `UNDO_LIMIT = 10` with the
oldest snapshot evicted first.  Starting from a state with empty history,
after `UNDO_LIMIT + 1 = 11` board-changing moves the final history holds
exactly the 10 most recent pre-move snapshots (those of the states reached
after moves 1 through 10; the snapshot of the initial state has been
evicted), the first 10 undo calls return `true` and restore the states
after moves 10, 9, ..., 1 in that order, and the 11th undo call returns
`false`. -/
theorem claim_C5_undo_capacity (g0 : Game2048)
    (args : List (MovementDirection × Nat × Bool)) (gs : List Game2048)
    (h0 : g0.previous_states = [])
    (hlen : args.length = UNDO_LIMIT + 1)
    (hrun : trajAux g0 args = some gs) :
    (gs.getLastD g0).previous_states
        = (gs.take UNDO_LIMIT).map (fun h => (h.board, h.score)) ∧
    (∀ k, k < UNDO_LIMIT →
      (undo (undoN (gs.getLastD g0) k)).2 = true ∧
      (undo (undoN (gs.getLastD g0) k)).1.board
          = (gs.getD (UNDO_LIMIT - 1 - k) g0).board ∧
      (undo (undoN (gs.getLastD g0) k)).1.score
          = (gs.getD (UNDO_LIMIT - 1 - k) g0).score) ∧
    (undo (undoN (gs.getLastD g0) UNDO_LIMIT)).2 = false := by
  have hglen : gs.length = UNDO_LIMIT + 1 := by
    rw [trajAux_length args g0 gs hrun, hlen]
  have hmain : (gs.getLastD g0).previous_states
      = (gs.take UNDO_LIMIT).map (fun h => (h.board, h.score)) := by
    have hfin := trajAux_prev args g0 gs hrun (by rw [h0]; exact Nat.zero_le _)
    rw [h0, List.nil_append] at hfin
    cases gs with
    | nil => simp [UNDO_LIMIT] at hglen
    | cons g1 gs' =>
      rw [List.dropLast_cons₂, List.map_cons] at hfin
      have hlt : ((g1 :: gs').dropLast.map (fun h => (h.board, h.score))).length
          = UNDO_LIMIT := by
        rw [List.length_map, List.length_dropLast]
        simp only [List.length_cons] at hglen ⊢
        omega
      rw [hfin, lastN_cons_of_length _ _ _ hlt]
      congr 1
      rw [List.dropLast_eq_take]
      congr 1
      simp only [List.length_cons] at hglen ⊢
      omega
  have hllen : ((gs.take UNDO_LIMIT).map (fun h => (h.board, h.score))).length
      = UNDO_LIMIT := by
    rw [List.length_map, List.length_take, hglen]
    omega
  refine ⟨hmain, ?_, ?_⟩
  · intro k hk
    have hk' : k < ((gs.take UNDO_LIMIT).map (fun h => (h.board, h.score))).length := by
      rw [hllen]
      exact hk
    have hidx : ((gs.take UNDO_LIMIT).map (fun h => (h.board, h.score))).length - 1 - k
        = UNDO_LIMIT - 1 - k := by
      rw [hllen]
    have hu := undo_undoN_of_lt _ (gs.getLastD g0) hmain k hk' (g0.board, g0.score)
    have hp : ((gs.take UNDO_LIMIT).map (fun h => (h.board, h.score))).getD
          (((gs.take UNDO_LIMIT).map (fun h => (h.board, h.score))).length - 1 - k)
          (g0.board, g0.score)
        = ((gs.getD (UNDO_LIMIT - 1 - k) g0).board,
           (gs.getD (UNDO_LIMIT - 1 - k) g0).score) := by
      rw [hidx, getD_map_pair, getD_take_of_lt gs UNDO_LIMIT _ g0 (by omega)]
    rw [hu, hp]
    exact ⟨rfl, rfl, rfl⟩
  · have hfin := undo_undoN_exhaust _ (gs.getLastD g0) hmain
    rw [hllen] at hfin
    exact hfin

/-- Witness for C5 at a concrete run: eleven board-changing moves from an
empty-history start, then ten successful undos and a failing eleventh. -/
theorem claim_C5_witness :
    (g0W.previous_states = [] ∧ argsW.length = UNDO_LIMIT + 1 ∧
      trajAux g0W argsW = some gsW) ∧
    ((gsW.getLastD g0W).previous_states
        = (gsW.take UNDO_LIMIT).map (fun h => (h.board, h.score)) ∧
     (∀ k, k < UNDO_LIMIT →
       (undo (undoN (gsW.getLastD g0W) k)).2 = true ∧
       (undo (undoN (gsW.getLastD g0W) k)).1.board
           = (gsW.getD (UNDO_LIMIT - 1 - k) g0W).board ∧
       (undo (undoN (gsW.getLastD g0W) k)).1.score
           = (gsW.getD (UNDO_LIMIT - 1 - k) g0W).score) ∧
     (undo (undoN (gsW.getLastD g0W) UNDO_LIMIT)).2 = false) :=
  ⟨⟨rfl, rfl, rfl⟩, claim_C5_undo_capacity g0W argsW gsW rfl rfl rfl⟩

end TwentyFortyEight
